import Mathlib

/-!
Verification of the chuckterm mail synchronisation and grouping engine.

This file gives a shallow embedding of the core routines of the repository:
the sender normaliser (`internal/util`, backed by Go `net/mail.ParseAddress`),
the aggregator and sorter (`internal/gmail/fetch.go`), the unsubscribe-URL
extractor, and the Full Scan / Incremental Sync orchestration
(`internal/gmail`, history sync file).  Strings are modelled as `List Char`
(`Str`).  The Go standard-library pieces the code calls (`net/mail`,
`strings`, `strconv`) are modelled faithfully for the fragment the repository
exercises; deliberate restrictions (no RFC 2047 encoded words, no CFWS
comments, no domain literals, ASCII-only case mapping and whitespace) are
noted at each definition.
-/

namespace Chuckterm

/-- Strings are modelled as lists of characters. -/
abbrev Str := List Char

/-! ## Character classes (Go `net/mail` predicates) -/

/-- Go `isWSP`: space or tab (used by `addrParser.skipSpace`). -/
def isWSPB (c : Char) : Bool := c = ' ' || c = '\t'

/-- Go `unicode.IsSpace` restricted to ASCII whitespace
(space, tab, newline, carriage return, vertical tab, form feed).
Used to model `strings.TrimSpace`. -/
def isSpaceGo (c : Char) : Bool :=
  c = ' ' || c = '\t' || c = '\n' || c = '\r' || c.toNat = 11 || c.toNat = 12

/-- Go `isVchar`: visible ASCII, or a multibyte (non-ASCII) rune. -/
def isVcharB (c : Char) : Bool := (33 ≤ c.toNat && c.toNat ≤ 126) || 128 ≤ c.toNat

/-- RFC 5322 "specials", as listed in Go `isAtext`. -/
def isSpecialB (c : Char) : Bool :=
  c = '(' || c = ')' || c = '<' || c = '>' || c = '[' || c = ']' ||
  c = ':' || c = ';' || c = '@' || c = '\\' || c = ',' || c = '"'

/-- Go `isAtext`: a dot when `dot` is allowed, otherwise any vchar that is
not a special. -/
def isAtextB (dot : Bool) (c : Char) : Bool :=
  if c = '.' then dot
  else if isSpecialB c then false
  else isVcharB c

/-- Go `isQtext`: vchar except double quote and backslash. -/
def isQtextB (c : Char) : Bool := isVcharB c && !(c = '"') && !(c = '\\')

/-! ## Parser pieces (Go `net/mail` `addrParser`) -/

/-- Go `addrParser.skipSpace`: drop leading spaces and tabs. -/
def skipSpace (s : Str) : Str := s.dropWhile isWSPB

/-- Detects a `".."` substring; part of the dot-atom validity test that
Go `consumeAtom` performs in non-permissive mode. -/
def hasDoubleDot : Str → Bool
  | [] => false
  | [_] => false
  | a :: b :: rest => (a = '.' && b = '.') || hasDoubleDot (b :: rest)

/-- The non-permissive checks of Go `consumeAtom`: no leading dot, no
trailing dot, no double dot. -/
def dotAtomCheck (atom : Str) : Bool :=
  !(atom.head? = some '.') && !(atom.getLast? = some '.') && !(hasDoubleDot atom)

/-- Go `addrParser.consumeAtom(dot, permissive)`: take the longest atext run;
fail when it is empty or (in strict mode) fails the dot checks.  Returns the
atom and the remaining input. -/
def consumeAtom (dot : Bool) (permissive : Bool) (s : Str) : Option (Str × Str) :=
  let atom := s.takeWhile (isAtextB dot)
  if atom.isEmpty then none
  else if !permissive && !dotAtomCheck atom then none
  else some (atom, s.dropWhile (isAtextB dot))

/-- Body of Go `addrParser.consumeQuotedString`, after the opening quote:
qtext/WSP and backslash-escaped vchar/WSP characters up to the closing
quote.  Returns the unescaped content and the input after the closing
quote. -/
def quotedBody : Str → Option (Str × Str)
  | [] => none
  | c :: rest =>
    if c = '"' then some ([], rest)
    else if c = '\\' then
      match rest with
      | [] => none
      | d :: rest2 =>
        if isVcharB d || isWSPB d then (quotedBody rest2).map (fun p => (d :: p.1, p.2))
        else none
    else if isQtextB c || isWSPB c then (quotedBody rest).map (fun p => (c :: p.1, p.2))
    else none

/-- Go `addrParser.consumeAddrSpec`: local part (dot-atom or non-empty
quoted string), `@`, optional spaces, then a dot-atom domain.  Domain
literals (`[...]`) are not modelled (parse failure instead).  Returns
`localPart ++ "@" ++ domain` (the quoted local part unescaped, as in Go's
`Address.Address`) and the remaining input. -/
def consumeAddrSpec (s : Str) : Option (Str × Str) :=
  let s1 := skipSpace s
  match s1 with
  | [] => none
  | c :: rest =>
    let localRes : Option (Str × Str) :=
      if c = '"' then
        match quotedBody rest with
        | some (content, r) => if content.isEmpty then none else some (content, r)
        | none => none
      else consumeAtom true false s1
    match localRes with
    | none => none
    | some (localPart, r1) =>
      match r1 with
      | '@' :: r2 =>
        let r2s := skipSpace r2
        match r2s with
        | [] => none
        | d :: _ =>
          if d = '[' then none
          else
            match consumeAtom true false r2s with
            | none => none
            | some (domain, r3) => some (localPart ++ '@' :: domain, r3)
      | _ => none

/-- One pass of the word loop in Go `addrParser.consumePhrase`: skip spaces,
then read a word (quoted string or permissive dot-atom).  `n` counts words
read so far; on a failed word the loop breaks, which is an error only when
no word was read.  RFC 2047 encoded-word decoding is not modelled (it only
affects the display name, which the repository discards).  The `fuel`
argument bounds the recursion; `input.length + 1` always suffices. -/
def phraseWords : Nat → Str → Nat → Option Str
  | 0, _, _ => none
  | fuel + 1, s, n =>
    let s1 := skipSpace s
    match s1 with
    | [] => if n = 0 then none else some []
    | c :: rest =>
      let afterWord : Option Str :=
        if c = '"' then (quotedBody rest).map (fun p => p.2)
        else (consumeAtom true true s1).map (fun p => p.2)
      match afterWord with
      | some r => phraseWords fuel r (n + 1)
      | none => if n = 0 then none else some s1

/-- Go `addrParser.consumePhrase`: one or more words; returns the input
position after the phrase. -/
def consumePhrase (s : Str) : Option Str := phraseWords (s.length + 1) s 0

/-- The parsed address.  Only the `Address` field of Go `mail.Address` is
retained; the display name is discarded by the repository. -/
structure MailAddr where
  address : Str
deriving Repr, DecidableEq

/-- Go `mail.ParseAddress` (`parseSingleAddress`): try a bare addr-spec
first; otherwise an optional display-name phrase followed by an
angle-addr.  Trailing input after the address is an error.  Group syntax
and CFWS comments are not modelled (parse failure instead). -/
def parseOneAddress (s : Str) : Option MailAddr :=
  let s0 := skipSpace s
  if s0.isEmpty then none
  else
    match consumeAddrSpec s0 with
    | some (spec, rest) =>
      if (skipSpace rest).isEmpty then some ⟨spec⟩ else none
    | none =>
      let afterName : Option Str :=
        match s0 with
        | '<' :: _ => some s0
        | _ => consumePhrase s0
      match afterName with
      | none => none
      | some r1 =>
        match r1 with
        | '<' :: r2 =>
          match consumeAddrSpec r2 with
          | none => none
          | some (spec, r3) =>
            match r3 with
            | '>' :: r4 => if (skipSpace r4).isEmpty then some ⟨spec⟩ else none
            | _ => none
        | _ => none

/-! ## The sender normaliser (`internal/util`, `NormalizeSender`) -/

/-- Go `strings.TrimSpace` (ASCII whitespace only). -/
def trimSpace (s : Str) : Str := ((s.dropWhile isSpaceGo).reverse.dropWhile isSpaceGo).reverse

/-- Go `strings.LastIndexByte` as an optional position (Go returns -1 for
"absent"). -/
def lastIdxOf (c : Char) : Str → Option Nat
  | [] => none
  | a :: rest =>
    match lastIdxOf c rest with
    | some i => some (i + 1)
    | none => if a = c then some 0 else none

/-- Go `strings.IndexByte` as an optional position. -/
def firstIdxOf (c : Char) : Str → Option Nat
  | [] => none
  | a :: rest => if a = c then some 0 else (firstIdxOf c rest).map (· + 1)

/-- The address post-processing inside `NormalizeSender`: trim and
lowercase the parsed address, split at the last `@`, and drop the local
part from the first `+` on.  When the `@` is absent or at position 0 the
lowercased address is returned unchanged.  Case mapping is ASCII-only
(`Char.toLower`), matching Go `strings.ToLower` on ASCII input. -/
def normEmail (address : Str) : Str :=
  let email := (trimSpace address).map Char.toLower
  match lastIdxOf '@' email with
  | none => email
  | some atPos =>
    if atPos = 0 then email
    else
      let lp := email.take atPos
      let domain := email.drop (atPos + 1)
      let lp2 :=
        match firstIdxOf '+' lp with
        | some p => lp.take p
        | none => lp
      lp2 ++ '@' :: domain

/-- Go `strings.Split` on a single separator character. -/
def splitOnChar (sep : Char) : Str → List Str
  | [] => [[]]
  | c :: rest =>
    match splitOnChar sep rest with
    | [] => [[c]]
    | g :: gs => if c = sep then [] :: g :: gs else (c :: g) :: gs

/-- The comma fallback in `NormalizeSender`: try each comma-separated
piece, trimmed, returning the first that parses. -/
def parseFallback : List Str → Option MailAddr
  | [] => none
  | p :: rest =>
    match parseOneAddress (trimSpace p) with
    | some a => some a
    | none => parseFallback rest

/-- `util.NormalizeSender`: parse the From header as a single RFC 5322
address (with the comma-split fallback) and canonicalise it; empty string
when parsing fails. -/
def NormalizeSender (fromHeader : Str) : Str :=
  if fromHeader.isEmpty then []
  else
    match parseOneAddress fromHeader with
    | some addr => normEmail addr.address
    | none =>
      match parseFallback (splitOnChar ',' fromHeader) with
      | some addr => normEmail addr.address
      | none => []

/-! ## Data model (`chuckterm/internal/model`) -/

/-- `model.MessageRef`: the per-message record persisted by the store. -/
structure MessageRef where
  ID : Str
  Subject : Str
  DateRFC3339 : Str
  From : Str
  ListUnsubscribe : Str
  ListUnsubscribePost : Str
deriving Repr, DecidableEq

/-- `model.SenderGroup`: the aggregation unit keyed by
(canonical sender, exact subject). -/
structure SenderGroup where
  Email : Str
  Subject : Str
  DisplayName : Str
  Count : Nat
  Sample : Str
  FirstDate : Str
  LastDate : Str
  MessageIDs : List Str
  UnsubscribeURL : Str
deriving Repr, DecidableEq

/-! ## Aggregator helpers (`internal/gmail/fetch.go`) -/

/-- Go string `<` (bytewise lexicographic; codepoint order coincides with
UTF-8 byte order). -/
def ltStr : Str → Str → Bool
  | [], [] => false
  | [], _ :: _ => true
  | _ :: _, [] => false
  | a :: xs, b :: ys => if a < b then true else if b < a then false else ltStr xs ys

/-- Go `strings.Trim(name, "\"'")`: strip leading/trailing double or
single quotes. -/
def trimQuotes (s : Str) : Str :=
  let isQ := fun (c : Char) => c = '"' || c.toNat = 39
  ((s.dropWhile isQ).reverse.dropWhile isQ).reverse

/-- `strings.ToUpper(parts[i][:1]) + parts[i][1:]` on a non-empty part
(ASCII case mapping). -/
def capitalizeFirst (s : Str) : Str :=
  match s with
  | [] => []
  | c :: rest => Char.toUpper c :: rest

/-- Go `strings.Join`. -/
def joinWith (sep : Str) : List Str → Str
  | [] => []
  | [x] => x
  | x :: y :: rest => x ++ sep ++ joinWith sep (y :: rest)

/-- `displayNameFromFrom`: the portion before `<` stripped of quotes when
present, else the local part of the normalized address with dot-separated
tokens initial-uppercased and joined by spaces. -/
def displayNameFromFrom (fromHeader normalized : Str) : Str :=
  let fromName : Str :=
    match firstIdxOf '<' fromHeader with
    | some i =>
      if 0 < i then trimQuotes (trimSpace (fromHeader.take i)) else []
    | none => []
  if !fromName.isEmpty then fromName
  else
    match firstIdxOf '@' normalized with
    | some a =>
      if 0 < a then
        let lp := normalized.take a
        let parts := (splitOnChar '.' lp).map (fun p => if p.isEmpty then p else capitalizeFirst p)
        joinWith [' '] parts
      else normalized
    | none => normalized

/-- Go `strings.Trim(p, "<>")`: strip all leading/trailing angle
brackets. -/
def trimAngles (s : Str) : Str :=
  let isA := fun (c : Char) => c = '<' || c = '>'
  ((s.dropWhile isA).reverse.dropWhile isA).reverse

/-- The loop body of `extractHTTPUnsubscribeURL`: first comma-separated
entry that, after trimming spaces and angle brackets, starts with
`http://` or `https://` case-insensitively. -/
def firstHTTPEntry : List Str → Str
  | [] => []
  | p :: rest =>
    let p1 := trimSpace (trimAngles (trimSpace p))
    let low := p1.map Char.toLower
    if ("http://".toList).isPrefixOf low || ("https://".toList).isPrefixOf low then p1
    else firstHTTPEntry rest

/-- `extractHTTPUnsubscribeURL`: find the first HTTP(S) URL in a
List-Unsubscribe header value. -/
def extractHTTPUnsubscribeURL (header : Str) : Str :=
  firstHTTPEntry (splitOnChar ',' header)

/-! ## Aggregator (`AggregateBySenderSubject`) -/

/-- Association-list lookup, modelling Go map read `groups[key]`. -/
def lookupKey {α : Type} (k : Str) : List (Str × α) → Option α
  | [] => none
  | (k2, v) :: rest => if k2 = k then some v else lookupKey k rest

/-- Association-list write, modelling Go map write `groups[key] = g`
(insertion order preserved for existing keys, new keys appended). -/
def setKey {α : Type} (k : Str) (v : α) : List (Str × α) → List (Str × α)
  | [] => [(k, v)]
  | (k2, w) :: rest => if k2 = k then (k2, v) :: rest else (k2, w) :: setKey k v rest

/-- The grouping key `email + "||" + subject`. -/
def groupKey (email subject : Str) : Str := email ++ '|' :: '|' :: subject

/-- The fresh group created when a key is first seen. -/
def newGroup (m : MessageRef) (email : Str) : SenderGroup :=
  { Email := email, Subject := m.Subject,
    DisplayName := displayNameFromFrom m.From email,
    Count := 0, Sample := [], FirstDate := [], LastDate := [],
    MessageIDs := [], UnsubscribeURL := [] }

/-- The per-message group update in `AggregateBySenderSubject`: bump the
count, set the sample subject, widen the date range (lexicographic
comparison of RFC 3339 strings), append the id when non-empty, and adopt
the first HTTP(S) unsubscribe URL. -/
def updateGroup (m : MessageRef) (g0 : SenderGroup) : SenderGroup :=
  let g1 : SenderGroup := { g0 with Count := g0.Count + 1 }
  let g2 : SenderGroup :=
    if g1.Sample.isEmpty && !m.Subject.isEmpty then { g1 with Sample := m.Subject } else g1
  let ts := trimSpace m.DateRFC3339
  let g3 : SenderGroup :=
    if !ts.isEmpty then
      let ga :=
        if g2.FirstDate.isEmpty || ltStr ts g2.FirstDate then { g2 with FirstDate := ts } else g2
      if ga.LastDate.isEmpty || ltStr ga.LastDate ts then { ga with LastDate := ts } else ga
    else g2
  let g4 : SenderGroup :=
    if !m.ID.isEmpty then { g3 with MessageIDs := g3.MessageIDs ++ [m.ID] } else g3
  if g4.UnsubscribeURL.isEmpty && !m.ListUnsubscribe.isEmpty then
    { g4 with UnsubscribeURL := extractHTTPUnsubscribeURL m.ListUnsubscribe }
  else g4

/-- One iteration of the `AggregateBySenderSubject` loop. -/
def aggStep (groups : List (Str × SenderGroup)) (m : MessageRef) : List (Str × SenderGroup) :=
  let email := NormalizeSender m.From
  if email.isEmpty then groups
  else
    let key := groupKey email m.Subject
    let g0 :=
      match lookupKey key groups with
      | some g => g
      | none => newGroup m email
    setKey key (updateGroup m g0) groups

/-- `AggregateBySenderSubject`: fold the records into the group map.
The Go map is modelled as an association list in first-insertion order. -/
def AggregateBySenderSubject (msgs : List MessageRef) : List (Str × SenderGroup) :=
  msgs.foldl aggStep []

/-! ## Sorting (`SortGroups`) -/

/-- The comparator passed to `sort.SliceStable` in `SortGroups`:
count descending, then email ascending, then subject ascending. -/
def goLess (a b : SenderGroup) : Bool :=
  if a.Count = b.Count then
    (if a.Email = b.Email then ltStr a.Subject b.Subject else ltStr a.Email b.Email)
  else decide (b.Count < a.Count)

/-- Stable insertion used to model `sort.SliceStable`: a new element is
placed before the first strictly-greater element, hence after all elements
that compare equal to it (later input indices stay later). -/
def insertStable (x : SenderGroup) : List SenderGroup → List SenderGroup
  | [] => [x]
  | y :: ys => if goLess x y then x :: y :: ys else y :: insertStable x ys

/-- A stable sort by `goLess` (extensionally equal to any stable sorting
algorithm with this comparator, in particular Go `sort.SliceStable`). -/
def sortStable (l : List SenderGroup) : List SenderGroup :=
  l.foldl (fun acc x => insertStable x acc) []

/-- `SortGroups`: copy the map values into a slice and stably sort them.
The map's iteration order is modelled by the association-list order. -/
def SortGroups (m : List (Str × SenderGroup)) : List SenderGroup :=
  sortStable (m.map Prod.snd)

/-! ## History sync layer (`SyncSinceHistory`, `FullScan`) -/

/-- Go `error` values are modelled as message strings. -/
abbrev Err := Str

/-- Subset of `gmailv1.Message` used by the history sync routines. -/
structure HistMsg where
  id : Str
  labelIds : List Str
deriving Repr, DecidableEq

/-- `HistoryMessageAdded` / `HistoryMessageDeleted`: an optional message. -/
structure MsgChange where
  message : Option HistMsg
deriving Repr, DecidableEq

/-- `HistoryLabelAdded` / `HistoryLabelRemoved`: an optional message plus
the changed label ids. -/
structure LabelChange where
  message : Option HistMsg
  labelIds : List Str
deriving Repr, DecidableEq

/-- `gmailv1.History`: one history record. -/
structure HistoryRecord where
  id : Nat
  messagesAdded : List MsgChange
  messagesDeleted : List MsgChange
  labelsAdded : List LabelChange
  labelsRemoved : List LabelChange
deriving Repr, DecidableEq

/-- One `Users.History.List` response page. -/
structure HistoryPage where
  historyId : Nat
  history : List HistoryRecord
deriving Repr, DecidableEq

/-- Go `set[id] = struct{}{}` on a `map[string]struct{}`, modelled as a
duplicate-free list in insertion order. -/
def listInsert (x : Str) (l : List Str) : List Str := if x ∈ l then l else l ++ [x]

/-- Go `delete(set, id)`. -/
def listErase (x : Str) (l : List Str) : List Str := l.filter (fun y => y ≠ x)

/-- `hasLabel`: whether a message carries a label id. -/
def hasLabel (m : HistMsg) (lab : Str) : Bool := m.labelIds.contains lab

/-- The INBOX label id. -/
def INBOX : Str := "INBOX".toList

/-- A single history event, in the order `SyncSinceHistory` applies them. -/
inductive HistEvent where
  | added (m : Option HistMsg)
  | deleted (m : Option HistMsg)
  | labelsAdded (m : Option HistMsg) (labelIds : List Str)
  | labelsRemoved (m : Option HistMsg) (labelIds : List Str)
deriving Repr, DecidableEq

/-- One event applied to the `(addSet, delSet)` pair, exactly as in the
four loops of `SyncSinceHistory`: an INBOX arrival inserts into `add` and
erases from `del`, a deletion or INBOX label removal inserts into `del`
and erases from `add`; `nil` messages and non-INBOX label changes are
skipped. -/
def stepEvent (s : List Str × List Str) (e : HistEvent) : List Str × List Str :=
  match e with
  | .added mo =>
    match mo with
    | none => s
    | some m => if hasLabel m INBOX then (listInsert m.id s.1, listErase m.id s.2) else s
  | .deleted mo =>
    match mo with
    | none => s
    | some m => (listErase m.id s.1, listInsert m.id s.2)
  | .labelsAdded mo labs =>
    match mo with
    | none => s
    | some m => if labs.contains INBOX then (listInsert m.id s.1, listErase m.id s.2) else s
  | .labelsRemoved mo labs =>
    match mo with
    | none => s
    | some m => if labs.contains INBOX then (listErase m.id s.1, listInsert m.id s.2) else s

/-- The events of one history record in application order:
`MessagesAdded`, then `MessagesDeleted`, then `LabelsAdded`, then
`LabelsRemoved`. -/
def recordEvents (h : HistoryRecord) : List HistEvent :=
  h.messagesAdded.map (fun c => .added c.message) ++
  h.messagesDeleted.map (fun c => .deleted c.message) ++
  h.labelsAdded.map (fun c => .labelsAdded c.message c.labelIds) ++
  h.labelsRemoved.map (fun c => .labelsRemoved c.message c.labelIds)

/-- The four consecutive loops of `SyncSinceHistory` over one history
record, written as a single fold over the concatenated event list. -/
def applyHistoryRecord (s : List Str × List Str) (h : HistoryRecord) : List Str × List Str :=
  (recordEvents h).foldl stepEvent s

/-- Go `fmt.Sprintf("%d", n)`. -/
def natStr (n : Nat) : Str := (Nat.repr n).toList

/-- One page of the `SyncSinceHistory` history loop: take the page-level
`HistoryId` as `newestHistoryID` when non-zero, then walk the records in
order, overwriting `newestHistoryID` with each non-zero record id and
folding the add/del sets. -/
def processPage (acc : (List Str × List Str) × Str) (p : HistoryPage) : (List Str × List Str) × Str :=
  let newest0 := if p.historyId ≠ 0 then natStr p.historyId else acc.2
  p.history.foldl
    (fun a h =>
      let newest := if h.id ≠ 0 then natStr h.id else a.2
      (applyHistoryRecord a.1 h, newest))
    (acc.1, newest0)

/-- The whole history paging loop, starting from empty sets and an empty
`newestHistoryID`. -/
def foldPages (pages : List HistoryPage) : (List Str × List Str) × Str :=
  pages.foldl processPage (([], []), [])

/-! ## Store (`internal/store`, `gmail.MessageStore`) -/

/-- The durable store: the `messages` table keyed by id and the
`last_history_id` metadata row. -/
structure StoreState where
  messages : List (Str × MessageRef)
  cursor : Option Str
deriving Repr, DecidableEq

/-- `UpsertMessages`: INSERT OR REPLACE each record, keyed by id. -/
def upsertMessages (st : StoreState) (msgs : List MessageRef) : StoreState :=
  { st with messages := msgs.foldl (fun acc m => setKey m.ID m acc) st.messages }

/-- `DeleteMessages`: remove the rows with the given ids. -/
def deleteMessages (st : StoreState) (ids : List Str) : StoreState :=
  { st with messages := st.messages.filter (fun kv => !(ids.contains kv.1)) }

/-- `SetLastHistoryID`: overwrite the stored cursor. -/
def setLastHistoryID (st : StoreState) (hid : Str) : StoreState :=
  { st with cursor := some hid }

/-! ## Fetch pool and orchestration -/

/-- Subset of a metadata `Users.Messages.Get` response: id and headers. -/
structure GmailMessage where
  id : Str
  headers : List (Str × Str)
deriving Repr, DecidableEq

/-- The header scan both fetch workers perform: ASCII-case-insensitive
name match, later occurrences overwriting earlier ones. -/
def headerValue (name : Str) (headers : List (Str × Str)) : Str :=
  headers.foldl (fun acc h => if h.1.map Char.toLower = name then h.2 else acc) []

/-- Go `strconv.ParseUint(s, 10, 64)`: non-empty, decimal digits only,
value below `2^64`. -/
def parseUint64 (s : Str) : Option Nat :=
  if s.isEmpty then none
  else if s.all (fun c => c.isDigit) then
    let n := s.foldl (fun acc c => acc * 10 + (c.toNat - 48)) 0
    if n < 18446744073709551616 then some n else none
  else none

section Sync

variable (parseDate : Str → Str)
variable (fetch : Str → Except Err GmailMessage)
variable (okUpsert : Nat → Bool)

/-- The record a fetch worker builds from a metadata response (the body of
the worker loops in `FullScan` and `fetchMetadataBatch`).  The date ladder
`parseDateRFC3339` is kept abstract as `parseDate`; every theorem below
holds for an arbitrary date parser. -/
def decodeMessage (msg : GmailMessage) : MessageRef :=
  { ID := msg.id,
    From := NormalizeSender (headerValue ("from".toList) msg.headers),
    Subject := headerValue ("subject".toList) msg.headers,
    DateRFC3339 := parseDate (headerValue ("date".toList) msg.headers),
    ListUnsubscribe := headerValue ("list-unsubscribe".toList) msg.headers,
    ListUnsubscribePost := headerValue ("list-unsubscribe-post".toList) msg.headers }

/-- The worker pool's result stream for a given id list, modelled in id
order.  Worker interleaving only permutes the stream; the collectors are
order-insensitive except for the identity of the "first" error, which in
this model is the first in id order. -/
def fetchResults (ids : List Str) : List (Except Err MessageRef) :=
  ids.map (fun i => (fetch i).map (decodeMessage parseDate))

/-- The collect loop of `fetchMetadataBatch`: record the first error and
continue; skip records with an empty canonical sender; keep the rest in
arrival order. -/
def collectBatchStep (acc : List MessageRef × Option Err) (r : Except Err MessageRef) :
    List MessageRef × Option Err :=
  match r with
  | .error e => if acc.2 = none then (acc.1, some e) else acc
  | .ok ref => if ref.From.isEmpty then acc else (acc.1 ++ [ref], acc.2)

/-- `fetchMetadataBatch`: fetch metadata for the ids through the worker
pool and collect `(records, firstError)`. -/
def fetchMetadataBatch (ids : List Str) : List MessageRef × Option Err :=
  (fetchResults parseDate fetch ids).foldl collectBatchStep ([], none)

/-- `SyncSinceHistory`, on the successful-transport path: the history
responses are given as `pages` (a page-level gateway error aborts the sync
before any store write; that abort is not modelled further), and store
writes are modelled as infallible (a storage error likewise aborts without
advancing the cursor).  Mirrors: cursor validation, the history fold into
add/del sets and `newestHistoryID`, metadata fetch for the adds (returning
the first per-id error, which aborts), upsert of the fetched records,
batch delete, the current-cursor fallback (`currentCursor` stands for the
gateway's `currentHistoryID` result) and the final `SetLastHistoryID`. -/
def syncSinceHistory (pages : List HistoryPage) (lastHistoryID : Str)
    (currentCursor : Str) (st : StoreState) : Except Err StoreState :=
  if (trimSpace lastHistoryID).isEmpty then .error ("lastHistoryID is required".toList)
  else
    match parseUint64 lastHistoryID with
    | none => .error ("invalid lastHistoryID".toList)
    | some _ =>
      let folded := foldPages pages
      let addSet := folded.1.1
      let delSet := folded.1.2
      let afterAdds : Except Err StoreState :=
        if addSet.isEmpty then .ok st
        else
          let fb := fetchMetadataBatch parseDate fetch addSet
          match fb.2 with
          | some e => .error e
          | none => .ok (upsertMessages st fb.1)
      match afterAdds with
      | .error e => .error e
      | .ok st1 =>
        let st2 := if delSet.isEmpty then st1 else deleteMessages st1 delSet
        let newest := if folded.2.isEmpty then currentCursor else folded.2
        .ok (setLastHistoryID st2 newest)

/-- State of the Full Scan collector loop (step 5 of `FullScan`). -/
structure FSState where
  st : StoreState
  buf : List MessageRef
  done : Nat
  collectErr : Option Err
  upsertCalls : Nat
deriving Repr, DecidableEq

/-- One `UpsertMessages(ctx, buf)` call of the Full Scan collector.  The
`okUpsert` oracle (indexed by call count) decides whether the write
succeeds; a failure is recorded as the first error and the batch is lost,
but the scan continues (the buffer is reset either way). -/
def fsFlush (a : FSState) : FSState :=
  if okUpsert a.upsertCalls then
    { a with st := upsertMessages a.st a.buf, buf := [], upsertCalls := a.upsertCalls + 1 }
  else
    { a with
      collectErr := if a.collectErr = none then some ("upsert failed".toList) else a.collectErr,
      buf := [], upsertCalls := a.upsertCalls + 1 }

/-- One result consumed by the Full Scan collector: record the first error
and continue; skip empty canonical senders; otherwise buffer the record,
count it in `done`, and flush once the buffer reaches the batch size of
500. -/
def fsStep (a : FSState) (r : Except Err MessageRef) : FSState :=
  match r with
  | .error e => if a.collectErr = none then { a with collectErr := some e } else a
  | .ok ref =>
    if ref.From.isEmpty then a
    else
      let a1 := { a with buf := a.buf ++ [ref], done := a.done + 1 }
      if 500 ≤ a1.buf.length then fsFlush okUpsert a1 else a1

/-- Steps 5–6 of `FullScan`: drain the result stream, flush the final
partial batch, and call `SetLastHistoryID(hid)` when anything was
processed (`done > 0`) — even if some or all upserts failed.  `hid` is the
mailbox cursor captured at scan start. -/
def fullScanCollect (hid : Str) (results : List (Except Err MessageRef)) (st0 : StoreState) :
    FSState :=
  let a := results.foldl (fsStep okUpsert) ⟨st0, [], 0, none, 0⟩
  let a1 := if !a.buf.isEmpty then fsFlush okUpsert a else a
  if 0 < a1.done then { a1 with st := setLastHistoryID a1.st hid } else a1

/-- The Full Scan pipeline for a listed id snapshot: fetch and decode each
id through the worker pool and run the collector. -/
def fullScanRun (hid : Str) (ids : List Str) (st0 : StoreState) : FSState :=
  fullScanCollect okUpsert hid (fetchResults parseDate fetch ids) st0

end Sync

/-- The records of the Full Scan result stream that survive the collector
filter: successful fetches whose canonical sender is non-empty. -/
def doneCount (results : List (Except Err MessageRef)) : Nat :=
  (results.filter (fun r =>
    match r with
    | .ok ref => !ref.From.isEmpty
    | .error _ => false)).length

/-! ## Lemmas: add/del set operations -/

theorem mem_listInsert {a x : Str} {l : List Str} :
    a ∈ listInsert x l ↔ a = x ∨ a ∈ l := by
  unfold listInsert
  by_cases h : x ∈ l
  · simp only [if_pos h]
    constructor
    · exact fun h2 => Or.inr h2
    · rintro (rfl | h2)
      · exact h
      · exact h2
  · simp only [if_neg h, List.mem_append, List.mem_singleton]
    exact Or.comm

theorem mem_listErase {a x : Str} {l : List Str} :
    a ∈ listErase x l ↔ a ∈ l ∧ a ≠ x := by
  unfold listErase
  simp [List.mem_filter]

theorem disjoint_insert_erase {x : Str} {A B : List Str} (h : A.Disjoint B) :
    (listInsert x A).Disjoint (listErase x B) := by
  intro a ha hb
  rcases mem_listErase.mp hb with ⟨hb1, hb2⟩
  rcases mem_listInsert.mp ha with rfl | ha1
  · exact hb2 rfl
  · exact h ha1 hb1

theorem disjoint_erase_insert {x : Str} {A B : List Str} (h : A.Disjoint B) :
    (listErase x A).Disjoint (listInsert x B) := by
  intro a ha hb
  rcases mem_listErase.mp ha with ⟨ha1, ha2⟩
  rcases mem_listInsert.mp hb with rfl | hb1
  · exact ha2 rfl
  · exact h ha1 hb1

theorem stepEvent_disjoint {s : List Str × List Str} (h : s.1.Disjoint s.2)
    (e : HistEvent) : (stepEvent s e).1.Disjoint (stepEvent s e).2 := by
  cases e with
  | added mo =>
    cases mo with
    | none => exact h
    | some m =>
      by_cases hl : hasLabel m INBOX
      · simpa [stepEvent, hl] using disjoint_insert_erase h
      · simpa [stepEvent, hl] using h
  | deleted mo =>
    cases mo with
    | none => exact h
    | some m => simpa [stepEvent] using disjoint_erase_insert h
  | labelsAdded mo labs =>
    cases mo with
    | none => exact h
    | some m =>
      by_cases hl : INBOX ∈ labs
      · simpa [stepEvent, hl] using disjoint_insert_erase h
      · simpa [stepEvent, hl] using h
  | labelsRemoved mo labs =>
    cases mo with
    | none => exact h
    | some m =>
      by_cases hl : INBOX ∈ labs
      · simpa [stepEvent, hl] using disjoint_erase_insert h
      · simpa [stepEvent, hl] using h

theorem foldl_stepEvent_disjoint (evs : List HistEvent) :
    ∀ s : List Str × List Str, s.1.Disjoint s.2 →
      (evs.foldl stepEvent s).1.Disjoint (evs.foldl stepEvent s).2 := by
  induction evs with
  | nil => exact fun s h => h
  | cons e rest ih =>
    intro s h
    exact ih (stepEvent s e) (stepEvent_disjoint h e)

theorem applyHistoryRecord_disjoint {s : List Str × List Str} (h : s.1.Disjoint s.2)
    (r : HistoryRecord) : (applyHistoryRecord s r).1.Disjoint (applyHistoryRecord s r).2 :=
  foldl_stepEvent_disjoint (recordEvents r) s h

theorem processPage_disjoint {acc : (List Str × List Str) × Str}
    (h : acc.1.1.Disjoint acc.1.2) (p : HistoryPage) :
    (processPage acc p).1.1.Disjoint (processPage acc p).1.2 := by
  unfold processPage
  generalize hn : (if p.historyId ≠ 0 then natStr p.historyId else acc.2) = n0
  clear hn
  induction p.history generalizing acc n0 with
  | nil => exact h
  | cons r rest ih =>
    simp only [List.foldl_cons]
    exact @ih (applyHistoryRecord acc.1 r, n0) (applyHistoryRecord_disjoint h r) _

theorem foldPages_disjoint (pages : List HistoryPage) :
    (foldPages pages).1.1.Disjoint (foldPages pages).1.2 := by
  unfold foldPages
  have main : ∀ (ps : List HistoryPage) (acc : (List Str × List Str) × Str),
      acc.1.1.Disjoint acc.1.2 →
      (ps.foldl processPage acc).1.1.Disjoint (ps.foldl processPage acc).1.2 := by
    intro ps
    induction ps with
    | nil => exact fun acc h => h
    | cons p rest ih =>
      intro acc h
      exact ih (processPage acc p) (processPage_disjoint h p)
  exact main pages (([], []), []) (by simp [List.Disjoint])

/-- C4: every in-order fold of history events keeps the add and del sets
disjoint (stated for every prefix of an arbitrary event sequence, and for
the add/del sets `SyncSinceHistory` accumulates over its pages), and the
last relevant event for an id wins: `{Added id=7}` then
`{LabelsRemoved id=7, labels=[INBOX]}` yields `add = {}`, `del = {7}`,
while the reversed order yields `add = {7}`, `del = {}`. -/
theorem history_fold_disjoint_and_last_event_wins :
    (∀ (evs : List HistEvent) (n : Nat),
      ((evs.take n).foldl stepEvent ([], [])).1.Disjoint
        ((evs.take n).foldl stepEvent ([], [])).2)
    ∧ (∀ pages : List HistoryPage,
        (foldPages pages).1.1.Disjoint (foldPages pages).1.2)
    ∧ [HistEvent.added (some ⟨"7".toList, [INBOX]⟩),
       HistEvent.labelsRemoved (some ⟨"7".toList, []⟩) [INBOX]].foldl stepEvent ([], [])
        = ([], ["7".toList])
    ∧ [HistEvent.labelsRemoved (some ⟨"7".toList, []⟩) [INBOX],
       HistEvent.added (some ⟨"7".toList, [INBOX]⟩)].foldl stepEvent ([], [])
        = (["7".toList], []) := by
  refine ⟨fun evs n => foldl_stepEvent_disjoint _ _ (by simp [List.Disjoint]),
    foldPages_disjoint, by decide, by decide⟩

/-! ## Lemmas: Full Scan collector -/

theorem fsFlush_cursor (okUpsert : Nat → Bool) (a : FSState) :
    (fsFlush okUpsert a).st.cursor = a.st.cursor := by
  unfold fsFlush
  by_cases h : okUpsert a.upsertCalls <;> simp [h, upsertMessages]

theorem fsFlush_done (okUpsert : Nat → Bool) (a : FSState) :
    (fsFlush okUpsert a).done = a.done := by
  unfold fsFlush
  by_cases h : okUpsert a.upsertCalls <;> simp [h]

theorem fsStep_cursor (okUpsert : Nat → Bool) (a : FSState) (r : Except Err MessageRef) :
    (fsStep okUpsert a r).st.cursor = a.st.cursor := by
  unfold fsStep
  cases r with
  | error e => by_cases h : a.collectErr = none <;> simp [h]
  | ok ref =>
    by_cases h : ref.From.isEmpty
    · simp [h]
    · simp only [h, Bool.false_eq_true, if_false]
      by_cases h2 : 500 ≤ a.buf.length + 1
      · simp [h2, fsFlush_cursor]
      · simp [h2]

theorem fsStep_done (okUpsert : Nat → Bool) (a : FSState) (r : Except Err MessageRef) :
    (fsStep okUpsert a r).done = a.done + doneCount [r] := by
  unfold fsStep doneCount
  cases r with
  | error e => by_cases h : a.collectErr = none <;> simp [h]
  | ok ref =>
    by_cases h : ref.From.isEmpty
    · simp [h]
    · simp only [h, Bool.false_eq_true, if_false]
      by_cases h2 : 500 ≤ a.buf.length + 1
      · simp [h2, fsFlush_done, h]
      · simp [h2, h]

theorem foldl_fsStep_done_cursor (okUpsert : Nat → Bool) (results : List (Except Err MessageRef)) :
    ∀ a : FSState,
      ((results.foldl (fsStep okUpsert) a).done = a.done + doneCount results
      ∧ (results.foldl (fsStep okUpsert) a).st.cursor = a.st.cursor) := by
  induction results with
  | nil => intro a; simp [doneCount]
  | cons r rest ih =>
    intro a
    have hd := (ih (fsStep okUpsert a r)).1
    have hc := (ih (fsStep okUpsert a r)).2
    constructor
    · rw [List.foldl_cons, hd, fsStep_done]
      have : doneCount (r :: rest) = doneCount [r] + doneCount rest := by
        unfold doneCount
        cases r with
        | error e => simp
        | ok ref =>
          by_cases h : ref.From.isEmpty
          · simp [h]
          · simp only [h, Bool.false_eq_true, if_false, List.filter_cons, List.length_cons]
            simp [h]
            omega
      omega
    · rw [List.foldl_cons, hc, fsStep_cursor]

/-- C1 (amended): the Full Scan collector calls `SetLastHistoryID` with
the start-of-scan cursor if and only if at least one record was
successfully fetched and decoded (`done > 0`) — regardless of whether any
batch upsert succeeded.  In particular the cursor can be advanced even
when every upsert failed and nothing was committed. -/
theorem fullScan_sets_cursor_iff_done (okUpsert : Nat → Bool) (hid : Str)
    (results : List (Except Err MessageRef)) (st0 : StoreState) :
    (fullScanCollect okUpsert hid results st0).st.cursor
      = (if 0 < doneCount results then some hid else st0.cursor)
    ∧ (fullScanCollect okUpsert hid results st0).done = doneCount results := by
  unfold fullScanCollect
  have h := foldl_fsStep_done_cursor okUpsert results ⟨st0, [], 0, none, 0⟩
  set a := results.foldl (fsStep okUpsert) ⟨st0, [], 0, none, 0⟩ with ha
  have hdone : a.done = doneCount results := by rw [h.1]; simp
  have hcur : a.st.cursor = st0.cursor := h.2
  by_cases hb : a.buf.isEmpty
  · simp only [hb, Bool.not_true, if_false]
    by_cases hd : 0 < a.done
    · simp [hd, setLastHistoryID, hdone ▸ hd, hdone]
    · have : ¬ 0 < doneCount results := by rw [← hdone]; exact hd
      simp [hd, this, hcur, hdone]
  · simp only [hb, Bool.not_false, if_true]
    have hc2 : (fsFlush okUpsert a).st.cursor = st0.cursor := by
      rw [fsFlush_cursor]; exact hcur
    have hd2 : (fsFlush okUpsert a).done = doneCount results := by
      rw [fsFlush_done]; exact hdone
    by_cases hd : 0 < (fsFlush okUpsert a).done
    · simp [hd, setLastHistoryID, hd2 ▸ hd, hd2]
    · have : ¬ 0 < doneCount results := by rw [← hd2]; exact hd
      simp [hd, this, hc2, hd2]

/-- C1, counterexample to the claim as stated: one record is fetched
successfully but the only upsert fails, so nothing is committed — yet the
collector still sets the cursor to the captured value `"42"` (the final
store has an empty `messages` table and `cursor = some "42"`). -/
theorem fullScan_cursor_advanced_without_commit :
    (fullScanCollect (fun _ => false) ("42".toList)
        [.ok ⟨"m1".toList, "sub".toList, [], "a@b.com".toList, [], []⟩]
        ⟨[], none⟩).st
      = ⟨[], some ("42".toList)⟩ := by decide

/-! ## Lemmas: aggregator -/

theorem updateGroup_Count (m : MessageRef) (g : SenderGroup) :
    (updateGroup m g).Count = g.Count + 1 := by
  simp only [updateGroup]
  split_ifs <;> rfl

theorem updateGroup_MessageIDs (m : MessageRef) (g : SenderGroup) :
    (updateGroup m g).MessageIDs
      = (if m.ID.isEmpty then g.MessageIDs else g.MessageIDs ++ [m.ID]) := by
  simp only [updateGroup]
  split_ifs <;> simp_all

theorem lookupKey_mem {α : Type} {k : Str} {v : α} :
    ∀ {l : List (Str × α)}, lookupKey k l = some v → (k, v) ∈ l := by
  intro l
  induction l with
  | nil => intro h; simp [lookupKey] at h
  | cons p rest ih =>
    obtain ⟨k2, w⟩ := p
    intro h
    simp only [lookupKey] at h
    by_cases hk : k2 = k
    · simp only [if_pos hk] at h
      subst hk
      cases h
      exact List.mem_cons_self _ _
    · simp only [if_neg hk] at h
      exact List.mem_cons_of_mem _ (ih h)

theorem mem_setKey {α : Type} {kv : Str × α} {k : Str} {v : α} :
    ∀ {l : List (Str × α)}, kv ∈ setKey k v l → kv ∈ l ∨ kv = (k, v) := by
  intro l
  induction l with
  | nil =>
    intro h
    simp only [setKey, List.mem_singleton] at h
    exact Or.inr h
  | cons p rest ih =>
    obtain ⟨k2, w⟩ := p
    intro h
    simp only [setKey] at h
    by_cases hk : k2 = k
    · simp only [if_pos hk] at h
      rcases List.mem_cons.mp h with h1 | h1
      · right; rw [h1, hk]
      · left; exact List.mem_cons_of_mem _ h1
    · simp only [if_neg hk] at h
      rcases List.mem_cons.mp h with h1 | h1
      · left; exact h1 ▸ List.mem_cons_self _ _
      · rcases ih h1 with h2 | h2
        · left; exact List.mem_cons_of_mem _ h2
        · right; exact h2

theorem aggStep_count_inv {groups : List (Str × SenderGroup)} {m : MessageRef}
    (hm : m.ID ≠ [])
    (h : ∀ kv ∈ groups, kv.2.Count = kv.2.MessageIDs.length) :
    ∀ kv ∈ aggStep groups m, kv.2.Count = kv.2.MessageIDs.length := by
  intro kv hkv
  unfold aggStep at hkv
  by_cases he : (NormalizeSender m.From).isEmpty
  · simp only [he, if_true] at hkv
    exact h kv hkv
  · simp only [he, Bool.false_eq_true, if_false] at hkv
    rcases mem_setKey hkv with h1 | h1
    · exact h kv h1
    · have hg0 : ∀ g0 : SenderGroup, g0.Count = g0.MessageIDs.length →
          (updateGroup m g0).Count = (updateGroup m g0).MessageIDs.length := by
        intro g0 hg
        rw [updateGroup_Count, updateGroup_MessageIDs]
        have : ¬ m.ID.isEmpty = true := by
          simpa [List.isEmpty_iff] using hm
        simp [this, hg]
      rw [h1]
      dsimp only
      cases hl : lookupKey (groupKey (NormalizeSender m.From) m.Subject) groups with
      | some g =>
        simp only [hl]
        exact hg0 g (h _ (lookupKey_mem hl))
      | none =>
        simp only [hl]
        exact hg0 (newGroup m (NormalizeSender m.From)) (by simp [newGroup])

/-- C5 (amended): in every group the aggregator produces, `count` equals
the number of collected `messageIds`, provided every input record has a
non-empty id (always the case for real gateway responses).  A record with
an empty id increments `count` but is not appended to `messageIds`, so the
claim as stated — for arbitrary inputs including empty ids — fails. -/
theorem aggregator_count_matches_ids (msgs : List MessageRef)
    (h : ∀ m ∈ msgs, m.ID ≠ []) :
    ∀ kv ∈ AggregateBySenderSubject msgs, kv.2.Count = kv.2.MessageIDs.length := by
  unfold AggregateBySenderSubject
  suffices main : ∀ (ms : List MessageRef) (acc : List (Str × SenderGroup)),
      (∀ m ∈ ms, m.ID ≠ []) → (∀ kv ∈ acc, kv.2.Count = kv.2.MessageIDs.length) →
      ∀ kv ∈ ms.foldl aggStep acc, kv.2.Count = kv.2.MessageIDs.length by
    exact main msgs [] h (by simp)
  intro ms
  induction ms with
  | nil => exact fun acc _ hacc => hacc
  | cons m rest ih =>
    intro acc hms hacc
    simp only [List.foldl_cons]
    exact ih (aggStep acc m)
      (fun x hx => hms x (List.mem_cons_of_mem _ hx))
      (aggStep_count_inv (hms m (List.mem_cons_self _ _)) hacc)

/-- C5, witness for the amended theorem at a concrete input. -/
theorem aggregator_count_matches_ids_witness :
    (∀ m ∈ [MessageRef.mk ("1".toList) ("Promo".toList) [] ("Alice <user+ads@Example.com>".toList) [] [],
            MessageRef.mk ("2".toList) ("Promo".toList) [] ("a@b.com".toList) [] []], m.ID ≠ [])
    ∧ ∀ kv ∈ AggregateBySenderSubject
        [MessageRef.mk ("1".toList) ("Promo".toList) [] ("Alice <user+ads@Example.com>".toList) [] [],
         MessageRef.mk ("2".toList) ("Promo".toList) [] ("a@b.com".toList) [] []],
        kv.2.Count = kv.2.MessageIDs.length :=
  ⟨by decide, aggregator_count_matches_ids _ (by decide)⟩

/-- C5, counterexample to the claim as stated: a record whose id is the
empty string increments `count` to 1 while `messageIds` stays empty, so
`count ≠ |messageIds|`. -/
theorem aggregator_count_empty_id_counterexample :
    (AggregateBySenderSubject
        [MessageRef.mk [] ("x".toList) [] ("a@b.com".toList) [] []]).map
      (fun kv => (kv.2.Count, kv.2.MessageIDs.length)) = [(1, 0)] := by decide

/-! ## Unsubscribe-URL extraction (C9) -/

/-- The per-entry clean-up the code performs. -/
def cleanEntry (p : Str) : Str := trimSpace (trimAngles (trimSpace p))

/-- The scheme test the code performs on a cleaned entry. -/
def httpPred (p : Str) : Bool :=
  ("http://".toList).isPrefixOf (p.map Char.toLower)
    || ("https://".toList).isPrefixOf (p.map Char.toLower)

/-- The entry clean-up exactly as claim C9 words it: strip outer
whitespace and ONE pair of angle brackets, then the remaining outer
whitespace. -/
def claimStripOnePair (p : Str) : Str :=
  let p1 := trimSpace p
  let p2 :=
    match p1 with
    | '<' :: rest => if rest.getLast? = some '>' then rest.dropLast else p1
    | _ => p1
  trimSpace p2

/-- The extraction as claim C9 words it, differing from the code only in
stripping a single bracket pair. -/
def claimExtractUnsubscribe (header : Str) : Str :=
  (((splitOnChar ',' header).map claimStripOnePair).find? httpPred).getD []

/-- The extraction with the amended wording: strip outer whitespace and
ALL leading/trailing angle brackets per entry, and return the first entry
whose scheme is http or https case-insensitively (mailto entries are
thereby ignored). -/
def specExtractUnsubscribe (header : Str) : Str :=
  (((splitOnChar ',' header).map cleanEntry).find? httpPred).getD []

theorem firstHTTPEntry_eq_find (l : List Str) :
    firstHTTPEntry l = ((l.map cleanEntry).find? httpPred).getD [] := by
  induction l with
  | nil => rfl
  | cons p rest ih =>
    have hunfold : firstHTTPEntry (p :: rest)
        = if httpPred (cleanEntry p) then cleanEntry p else firstHTTPEntry rest := rfl
    rw [hunfold, List.map_cons]
    by_cases h : httpPred (cleanEntry p)
    · rw [if_pos h, List.find?_cons_of_pos _ h]
      rfl
    · rw [if_neg h, List.find?_cons_of_neg _ (by simpa using h), ih]

/-- C9 (amended): the code's unsubscribe extraction splits on commas,
strips outer whitespace and ALL leading/trailing angle brackets per entry
(Go `strings.Trim(p, "<>")`), and returns the first entry whose scheme is
http or https case-insensitively, ignoring mailto entries; the claim's
examples hold: `"<mailto:u@x.com>, <https://ex.com/u>"` yields
`"https://ex.com/u"` and a mailto-only header yields `""`. -/
theorem unsubscribe_extraction_characterisation :
    (∀ header : Str, extractHTTPUnsubscribeURL header = specExtractUnsubscribe header)
    ∧ extractHTTPUnsubscribeURL ("<mailto:u@x.com>, <https://ex.com/u>".toList)
        = "https://ex.com/u".toList
    ∧ extractHTTPUnsubscribeURL ("<mailto:u@x.com>".toList) = [] := by
  refine ⟨fun header => ?_, by decide, by decide⟩
  unfold extractHTTPUnsubscribeURL specExtractUnsubscribe
  exact firstHTTPEntry_eq_find _

/-- C9, counterexample to the claim as stated: on the entry
`"<<https://ex.com/u>>"` the one-pair reading leaves `"<https://ex.com/u>"`,
whose scheme check fails (result `""`), while the code strips all brackets
and returns the URL. -/
theorem unsubscribe_extraction_counterexample :
    extractHTTPUnsubscribeURL ("<<https://ex.com/u>>".toList) = "https://ex.com/u".toList
    ∧ claimExtractUnsubscribe ("<<https://ex.com/u>>".toList) = []
    ∧ extractHTTPUnsubscribeURL ("<<https://ex.com/u>>".toList)
        ≠ claimExtractUnsubscribe ("<<https://ex.com/u>>".toList) := by
  refine ⟨by decide, by decide, by decide⟩

/-! ## Lemmas: metadata batch fetch (C3) -/

/-- Closed form of the records `fetchMetadataBatch` collects: the
successfully fetched ids, decoded, with empty canonical senders dropped,
in id order. -/
def okDecoded (parseDate : Str → Str) (fetch : Str → Except Err GmailMessage)
    (ids : List Str) : List MessageRef :=
  ids.filterMap (fun i =>
    match fetch i with
    | .ok msg =>
      let r := decodeMessage parseDate msg
      if r.From.isEmpty then none else some r
    | .error _ => none)

/-- Closed form of the first per-id fetch error, in id order. -/
def firstFetchErr (fetch : Str → Except Err GmailMessage) (ids : List Str) : Option Err :=
  (ids.filterMap (fun i =>
    match fetch i with
    | .error e => some e
    | .ok _ => none)).head?

theorem collectBatch_spec (parseDate : Str → Str) (fetch : Str → Except Err GmailMessage)
    (ids : List Str) :
    ∀ (out0 : List MessageRef) (err0 : Option Err),
      (fetchResults parseDate fetch ids).foldl collectBatchStep (out0, err0)
        = (out0 ++ okDecoded parseDate fetch ids,
           match err0 with
           | some e => some e
           | none => firstFetchErr fetch ids) := by
  induction ids with
  | nil =>
    intro out0 err0
    cases err0 <;> simp [fetchResults, okDecoded, firstFetchErr]
  | cons i rest ih =>
    intro out0 err0
    simp only [fetchResults] at ih ⊢
    simp only [List.map_cons, List.foldl_cons]
    cases hf : fetch i with
    | error e =>
      have hstep : collectBatchStep (out0, err0) ((Except.error e : Except Err GmailMessage).map (decodeMessage parseDate))
          = (out0, match err0 with | none => some e | some e2 => some e2) := by
        cases err0 <;> simp [collectBatchStep, Except.map]
      rw [hstep, ih]
      cases err0 <;>
        simp [okDecoded, firstFetchErr, List.filterMap_cons, hf]
    | ok msg =>
      by_cases hr : (decodeMessage parseDate msg).From.isEmpty
      · have hstep : collectBatchStep (out0, err0) ((Except.ok msg : Except Err GmailMessage).map (decodeMessage parseDate))
            = (out0, err0) := by
          simp [collectBatchStep, Except.map, hr]
        rw [hstep, ih]
        have hr2 := List.isEmpty_iff.mp hr
        cases err0 <;>
          simp [okDecoded, firstFetchErr, List.filterMap_cons, hf, hr2]
      · have hstep : collectBatchStep (out0, err0) ((Except.ok msg : Except Err GmailMessage).map (decodeMessage parseDate))
            = (out0 ++ [decodeMessage parseDate msg], err0) := by
          simp [collectBatchStep, Except.map, hr]
        rw [hstep, ih]
        have hr2 : ¬((decodeMessage parseDate msg).From = []) :=
          fun hh => hr (List.isEmpty_iff.mpr hh)
        cases err0 <;>
          simp [okDecoded, firstFetchErr, List.filterMap_cons, hf, hr2]

/-- Concrete fetch oracle for the incremental-sync counterexample and
witness: id `"a"` fails with `"boom"`, all other ids succeed with a
parsable sender. -/
def fetchAB : Str → Except Err GmailMessage := fun i =>
  if i = "a".toList then .error ("boom".toList)
  else .ok ⟨i, [("From".toList, "x@y.com".toList)]⟩

/-- Concrete history page adding ids `"a"` and `"b"` to INBOX. -/
def pageAB : HistoryPage :=
  ⟨0, [⟨0, [⟨some ⟨"a".toList, [INBOX]⟩⟩, ⟨some ⟨"b".toList, [INBOX]⟩⟩], [], [], []⟩]⟩

/-- C3 (amended): inside `fetchMetadataBatch` a per-id error is isolated —
the remaining ids are still fetched and every successfully fetched record
(with a non-empty canonical sender) is returned alongside the first error
— but `SyncSinceHistory` treats that first error as fatal: it returns the
error and the fetched records are NOT upserted (the claim's assertion that
the overall sync continues and upserts them fails). -/
theorem incremental_per_id_error_aborts (parseDate : Str → Str)
    (fetch : Str → Except Err GmailMessage) :
    (∀ ids : List Str,
      fetchMetadataBatch parseDate fetch ids
        = (okDecoded parseDate fetch ids, firstFetchErr fetch ids))
    ∧ (∀ (pages : List HistoryPage) (lastHistoryID currentCursor : Str) (st : StoreState)
        (n : Nat) (e : Err),
        (trimSpace lastHistoryID).isEmpty = false →
        parseUint64 lastHistoryID = some n →
        (fetchMetadataBatch parseDate fetch (foldPages pages).1.1).2 = some e →
        syncSinceHistory parseDate fetch pages lastHistoryID currentCursor st = .error e) := by
  constructor
  · intro ids
    unfold fetchMetadataBatch
    simpa using collectBatch_spec parseDate fetch ids [] none
  · intro pages lastHistoryID currentCursor st n e h1 h2 h3
    unfold syncSinceHistory
    rw [h1]
    simp only [Bool.false_eq_true, if_false, h2]
    have haddne : (foldPages pages).1.1.isEmpty = false := by
      by_contra hne
      have : (foldPages pages).1.1 = [] := by
        cases hx : (foldPages pages).1.1
        · rfl
        · rw [hx] at hne; simp at hne
      rw [this] at h3
      have : fetchMetadataBatch parseDate fetch ([] : List Str) = ([], none) := rfl
      rw [this] at h3
      exact Option.noConfusion h3
    simp only [haddne, Bool.false_eq_true, if_false, h3]

/-- C3, witness for the amended theorem: ids `{a, b}` are to be added,
fetching `a` fails with `"boom"`, `b` succeeds — the batch still collects
`b` (isolation inside the pool), yet the sync returns the error. -/
theorem incremental_per_id_error_aborts_witness :
    (fetchMetadataBatch (fun _ => []) fetchAB ["a".toList, "b".toList]
      = (okDecoded (fun _ => []) fetchAB ["a".toList, "b".toList],
         firstFetchErr fetchAB ["a".toList, "b".toList]))
    ∧ syncSinceHistory (fun _ => []) fetchAB [pageAB] ("1".toList) ("100".toList) ⟨[], none⟩
        = .error ("boom".toList) :=
  ⟨(incremental_per_id_error_aborts (fun _ => []) fetchAB).1 _,
   (incremental_per_id_error_aborts (fun _ => []) fetchAB).2 [pageAB] _ _ _ 1 _
     (by decide) (by decide) (by decide)⟩

/-- C3, counterexample to the claim as stated: with adds `{a, b}` where
fetching `a` fails and `b` succeeds, one record is fetched successfully
(the batch returns it), yet the sync aborts with the error and the store
is never written — the fetched record is not upserted. -/
theorem incremental_per_id_error_counterexample :
    syncSinceHistory (fun _ => []) fetchAB [pageAB] ("1".toList) ("100".toList) ⟨[], none⟩
      = .error ("boom".toList)
    ∧ (fetchMetadataBatch (fun _ => []) fetchAB ["a".toList, "b".toList]).1.length = 1 := by
  exact ⟨rfl, rfl⟩

/-! ## Lemmas: newest observed cursor (C2) -/

theorem toDigitsCore_ne_nil (b : Nat) :
    ∀ (fuel n : Nat) (ds : List Char), ds ≠ [] ∨ fuel ≠ 0 →
      Nat.toDigitsCore b fuel n ds ≠ [] := by
  intro fuel
  induction fuel with
  | zero =>
    intro n ds h
    rcases h with h | h
    · simpa [Nat.toDigitsCore] using h
    · exact absurd rfl h
  | succ fuel ih =>
    intro n ds _
    simp only [Nat.toDigitsCore]
    by_cases hnb : n / b = 0
    · simp [hnb]
    · simp only [hnb, if_false]
      exact ih (n / b) ((n % b).digitChar :: ds) (Or.inl (by simp))

theorem natStr_ne_nil (n : Nat) : natStr n ≠ [] := by
  show (Nat.repr n).toList ≠ []
  have h1 : Nat.repr n = (Nat.toDigits 10 n).asString := rfl
  have h2 : ((Nat.toDigits 10 n).asString).toList = Nat.toDigits 10 n := rfl
  rw [h1, h2]
  exact toDigitsCore_ne_nil 10 (n + 1) n [] (Or.inr (by simp))

/-- The cursor values observed in the history stream, in stream order:
each page-level historyId followed by that page's record ids. -/
def observedCursors : List HistoryPage → List Nat
  | [] => []
  | p :: rest => (p.historyId :: p.history.map (fun h => h.id)) ++ observedCursors rest

/-- The last non-zero value of a list, if any: the value the
`newestHistoryID` variable tracks (zero cursor fields are skipped). -/
def lastNonZero (l : List Nat) : Option Nat :=
  l.foldl (fun acc n => if n ≠ 0 then some n else acc) none

/-- The `newestHistoryID` update as a string-valued fold. -/
def strNewest (m : Str) (ns : List Nat) : Str :=
  ns.foldl (fun acc n => if n ≠ 0 then natStr n else acc) m

theorem lastNonZero_aux (l : List Nat) :
    ∀ a0 : Option Nat,
      l.foldl (fun acc n => if n ≠ 0 then some n else acc) a0
        = match lastNonZero l with
          | some k => some k
          | none => a0 := by
  induction l with
  | nil => intro a0; simp [lastNonZero]
  | cons n rest ih =>
    intro a0
    by_cases h : n = 0
    · subst h
      simp only [lastNonZero, List.foldl_cons, ne_eq, not_true_eq_false, if_false,
        reduceIte] at ih ⊢
      exact ih a0
    · simp only [lastNonZero, List.foldl_cons, ne_eq, h, not_false_eq_true, if_true,
        reduceIte] at ih ⊢
      rw [ih (some n)]
      rcases hr : lastNonZero rest with _ | k <;> simp [lastNonZero] at hr <;> simp [hr]

theorem strNewest_spec (ns : List Nat) :
    ∀ m : Str,
      strNewest m ns = match lastNonZero ns with
        | some k => natStr k
        | none => m := by
  induction ns with
  | nil => intro m; simp [strNewest, lastNonZero]
  | cons n rest ih =>
    intro m
    by_cases h : n = 0
    · subst h
      simp only [strNewest, lastNonZero, List.foldl_cons, ne_eq, not_true_eq_false,
        if_false, reduceIte] at ih ⊢
      exact ih m
    · simp only [strNewest, lastNonZero, List.foldl_cons, ne_eq, h, not_false_eq_true,
        if_true, reduceIte] at ih ⊢
      rw [ih (natStr n)]
      have := lastNonZero_aux rest (some n)
      simp only [lastNonZero] at this
      rw [this]
      rcases hr : lastNonZero rest with _ | k <;> simp [lastNonZero] at hr <;> simp [hr]

theorem recsFold_snd (records : List HistoryRecord) :
    ∀ (sets : List Str × List Str) (m : Str),
      (records.foldl
        (fun a h => (applyHistoryRecord a.1 h, if h.id ≠ 0 then natStr h.id else a.2))
        (sets, m)).2
      = strNewest m (records.map (fun h => h.id)) := by
  induction records with
  | nil => intro sets m; rfl
  | cons r rest ih =>
    intro sets m
    simp only [List.foldl_cons, List.map_cons, strNewest] at ih ⊢
    exact ih _ _

theorem processPage_snd (acc : (List Str × List Str) × Str) (p : HistoryPage) :
    (processPage acc p).2
      = strNewest acc.2 (p.historyId :: p.history.map (fun h => h.id)) := by
  unfold processPage
  have h1 : strNewest acc.2 (p.historyId :: p.history.map (fun h => h.id))
      = strNewest (if p.historyId ≠ 0 then natStr p.historyId else acc.2)
          (p.history.map (fun h => h.id)) := rfl
  rw [h1]
  exact recsFold_snd p.history acc.1 _

theorem foldPages_snd (pages : List HistoryPage) :
    (foldPages pages).2 = strNewest [] (observedCursors pages) := by
  unfold foldPages
  suffices main : ∀ acc : (List Str × List Str) × Str,
      (pages.foldl processPage acc).2 = strNewest acc.2 (observedCursors pages) by
    exact main _
  induction pages with
  | nil => intro acc; rfl
  | cons p rest ih =>
    intro acc
    simp only [List.foldl_cons, observedCursors]
    rw [ih, processPage_snd]
    unfold strNewest
    rw [List.foldl_append]

theorem lastNonZero_is_max (l : List Nat)
    (hsort : (l.filter (fun n => 0 < n)).Chain' (· ≤ ·)) :
    ∀ m, lastNonZero l = some m → m ∈ l ∧ ∀ x ∈ l, x ≤ m := by
  induction l using List.reverseRecOn with
  | nil => intro m hm; simp [lastNonZero] at hm
  | append_singleton ys y ih =>
    intro m hm
    have hfold : lastNonZero (ys ++ [y])
        = if y ≠ 0 then some y else lastNonZero ys := by
      unfold lastNonZero
      rw [List.foldl_append]
      rfl
    by_cases hy : y = 0
    · rw [hfold] at hm
      simp only [hy, ne_eq, not_true_eq_false, if_false, reduceIte] at hm
      have hsort2 : (ys.filter (fun n => 0 < n)).Chain' (· ≤ ·) := by
        have heq : (ys ++ [y]).filter (fun n => 0 < n) = ys.filter (fun n => 0 < n) := by
          rw [List.filter_append]
          simp [hy]
        rwa [heq] at hsort
      rcases ih hsort2 m hm with ⟨h1, h2⟩
      refine ⟨List.mem_append_left _ h1, ?_⟩
      intro x hx
      rcases List.mem_append.mp hx with hx | hx
      · exact h2 x hx
      · have : x = y := by simpa using hx
        omega
    · rw [hfold] at hm
      simp only [ne_eq, hy, not_false_eq_true, if_true, reduceIte, Option.some.injEq] at hm
      subst hm
      refine ⟨List.mem_append_right _ (by simp), ?_⟩
      intro x hx
      rcases List.mem_append.mp hx with hx | hx
      · by_cases hx0 : x = 0
        · omega
        · have hpair := List.chain'_iff_pairwise.mp hsort
          have hfy : (ys ++ [y]).filter (fun n => 0 < n)
              = ys.filter (fun n => 0 < n) ++ [y] := by
            rw [List.filter_append]
            simp [Nat.pos_of_ne_zero hy]
          rw [hfy] at hpair
          exact (List.pairwise_append.mp hpair).2.2 x
            (List.mem_filter.mpr ⟨hx, by simp [Nat.pos_of_ne_zero hx0]⟩) y (by simp)
      · have : x = y := by simpa using hx
        omega

/-- C2 (amended): after a successful Incremental Sync the stored cursor is
the LAST non-zero cursor value observed in the history stream (each page
level historyId followed by that page's record ids, in stream order),
formatted in decimal — or the gateway's current mailbox cursor if no
non-zero value was observed.  When the observed non-zero values are
non-decreasing, as in a real history stream, that last value is also the
maximum of all observed values, which recovers the claim. -/
theorem incremental_cursor_last_observed (parseDate : Str → Str)
    (fetch : Str → Except Err GmailMessage)
    (pages : List HistoryPage) (lastHistoryID currentCursor : Str)
    (st st2 : StoreState)
    (h : syncSinceHistory parseDate fetch pages lastHistoryID currentCursor st = .ok st2) :
    st2.cursor = some (match lastNonZero (observedCursors pages) with
        | some n => natStr n
        | none => currentCursor)
    ∧ (((observedCursors pages).filter (fun n => 0 < n)).Chain' (· ≤ ·) →
        ∀ m, lastNonZero (observedCursors pages) = some m →
          m ∈ observedCursors pages ∧ ∀ x ∈ observedCursors pages, x ≤ m) := by
  refine ⟨?_, fun hs m hm => lastNonZero_is_max _ hs m hm⟩
  unfold syncSinceHistory at h
  split at h
  · exact Except.noConfusion h
  · split at h
    · exact Except.noConfusion h
    · dsimp only at h
      split at h
      · exact Except.noConfusion h
      · rename_i st1 heq
        injection h with h2
        subst h2
        simp only [setLastHistoryID, Option.some.injEq]
        have hfp : (foldPages pages).2 = strNewest [] (observedCursors pages) :=
          foldPages_snd pages
        rw [strNewest_spec] at hfp
        rcases hlnz : lastNonZero (observedCursors pages) with _ | k
        · rw [hlnz] at hfp
          simp only at hfp
          simp [hfp]
        · rw [hlnz] at hfp
          simp only at hfp
          have : ((foldPages pages).2).isEmpty = false := by
            rw [hfp]
            rcases hns : natStr k with _ | ⟨c, cs⟩
            · exact absurd hns (natStr_ne_nil k)
            · simp
          simp only [this, Bool.false_eq_true, if_false, hfp]
          split
          · rename_i hk
            exact absurd (List.isEmpty_iff.mp hk) (natStr_ne_nil k)
          · rfl

/-- C2, witness for the amended theorem: a successful sync over one page
(historyId 5, then a record with id 7) stores cursor `"7"`, which is the
last observed value and — the stream being non-decreasing — its
maximum. -/
theorem incremental_cursor_last_observed_witness :
    syncSinceHistory (fun _ => []) (fun _ => .error ("no".toList))
        [⟨5, [⟨7, [], [], [], []⟩]⟩] ("1".toList) ("100".toList) ⟨[], none⟩
      = .ok ⟨[], some ("7".toList)⟩
    ∧ ((⟨[], some ("7".toList)⟩ : StoreState).cursor
        = some (match lastNonZero (observedCursors [⟨5, [⟨7, [], [], [], []⟩]⟩]) with
            | some n => natStr n
            | none => "100".toList)
      ∧ (((observedCursors [⟨5, [⟨7, [], [], [], []⟩]⟩]).filter (fun n => 0 < n)).Chain'
            (· ≤ ·) →
          ∀ m, lastNonZero (observedCursors [⟨5, [⟨7, [], [], [], []⟩]⟩]) = some m →
            m ∈ observedCursors [⟨5, [⟨7, [], [], [], []⟩]⟩]
            ∧ ∀ x ∈ observedCursors [⟨5, [⟨7, [], [], [], []⟩]⟩], x ≤ m)) :=
  ⟨by rfl,
   incremental_cursor_last_observed (fun _ => []) (fun _ => .error ("no".toList))
     [⟨5, [⟨7, [], [], [], []⟩]⟩] ("1".toList) ("100".toList) ⟨[], none⟩
     ⟨[], some ("7".toList)⟩ (by rfl)⟩

/-- C2, counterexample to the claim as stated: a page with page-level
historyId 5 whose record carries id 3.  The maximum observed value is 5,
but the sync stores the LAST observed value `"3"`. -/
theorem incremental_cursor_not_max_counterexample :
    syncSinceHistory (fun _ => []) (fun _ => .error ("no".toList))
        [⟨5, [⟨3, [], [], [], []⟩]⟩] ("1".toList) ("100".toList) ⟨[], none⟩
      = .ok ⟨[], some ("3".toList)⟩
    ∧ observedCursors [⟨5, [⟨3, [], [], [], []⟩]⟩] = [5, 3]
    ∧ ("3".toList : Str) ≠ natStr 5 :=
  ⟨rfl, rfl, by decide⟩

/-! ## Lemmas: provenance of persisted records (C10) -/

theorem mem_upsert_foldl (msgs : List MessageRef) :
    ∀ (acc : List (Str × MessageRef)) (kv : Str × MessageRef),
      kv ∈ msgs.foldl (fun acc m => setKey m.ID m acc) acc →
      kv ∈ acc ∨ ∃ m ∈ msgs, kv = (m.ID, m) := by
  induction msgs with
  | nil => intro acc kv h; exact Or.inl h
  | cons m rest ih =>
    intro acc kv h
    simp only [List.foldl_cons] at h
    rcases ih _ kv h with h1 | ⟨m2, hm2, h2⟩
    · rcases mem_setKey h1 with h2 | h2
      · exact Or.inl h2
      · exact Or.inr ⟨m, List.mem_cons_self _ _, h2⟩
    · exact Or.inr ⟨m2, List.mem_cons_of_mem _ hm2, h2⟩

theorem mem_upsertMessages {st : StoreState} {msgs : List MessageRef} {kv : Str × MessageRef}
    (h : kv ∈ (upsertMessages st msgs).messages) :
    kv ∈ st.messages ∨ ∃ m ∈ msgs, kv = (m.ID, m) :=
  mem_upsert_foldl msgs st.messages kv h

theorem fsFlush_mem (okUpsert : Nat → Bool) (U : MessageRef → Prop)
    (a : FSState) (base : List (Str × MessageRef))
    (hbuf : ∀ r ∈ a.buf, U r)
    (hmsg : ∀ kv ∈ a.st.messages, kv ∈ base ∨ (U kv.2 ∧ kv.1 = kv.2.ID)) :
    (∀ r ∈ (fsFlush okUpsert a).buf, U r)
    ∧ (∀ kv ∈ (fsFlush okUpsert a).st.messages,
        kv ∈ base ∨ (U kv.2 ∧ kv.1 = kv.2.ID)) := by
  unfold fsFlush
  by_cases ho : okUpsert a.upsertCalls
  · simp only [ho, if_true, reduceIte]
    refine ⟨by simp, ?_⟩
    intro kv hkv
    rcases mem_upsertMessages hkv with h1 | ⟨m, hm, h2⟩
    · exact hmsg kv h1
    · subst h2
      exact Or.inr ⟨hbuf m hm, rfl⟩
  · simp only [ho, Bool.false_eq_true, if_false, reduceIte]
    exact ⟨by simp, hmsg⟩

theorem fsStep_error_eq (okUpsert : Nat → Bool) (a : FSState) (e : Err) :
    fsStep okUpsert a (.error e)
      = if a.collectErr = none then { a with collectErr := some e } else a := rfl

theorem fsStep_ok_eq (okUpsert : Nat → Bool) (a : FSState) (ref : MessageRef) :
    fsStep okUpsert a (.ok ref)
      = if ref.From.isEmpty then a
        else if 500 ≤ (a.buf ++ [ref]).length then
          fsFlush okUpsert { a with buf := a.buf ++ [ref], done := a.done + 1 }
        else { a with buf := a.buf ++ [ref], done := a.done + 1 } := rfl

theorem fsStep_mem (okUpsert : Nat → Bool) (U : MessageRef → Prop)
    (a : FSState) (base : List (Str × MessageRef)) (r : Except Err MessageRef)
    (hr : ∀ ref, r = Except.ok ref → ref.From.isEmpty = false → U ref)
    (hbuf : ∀ x ∈ a.buf, U x)
    (hmsg : ∀ kv ∈ a.st.messages, kv ∈ base ∨ (U kv.2 ∧ kv.1 = kv.2.ID)) :
    (∀ x ∈ (fsStep okUpsert a r).buf, U x)
    ∧ (∀ kv ∈ (fsStep okUpsert a r).st.messages,
        kv ∈ base ∨ (U kv.2 ∧ kv.1 = kv.2.ID)) := by
  cases r with
  | error e =>
    rw [fsStep_error_eq]
    by_cases hc : a.collectErr = none
    · rw [if_pos hc]
      exact ⟨hbuf, hmsg⟩
    · rw [if_neg hc]
      exact ⟨hbuf, hmsg⟩
  | ok ref =>
    rw [fsStep_ok_eq]
    by_cases hre : ref.From.isEmpty
    · rw [if_pos hre]
      exact ⟨hbuf, hmsg⟩
    · rw [if_neg hre]
      have hre2 : ref.From.isEmpty = false := by
        cases hx : ref.From.isEmpty
        · rfl
        · exact absurd hx hre
      have hbuf2 : ∀ x ∈ a.buf ++ [ref], U x := by
        intro x hx
        rcases List.mem_append.mp hx with hx | hx
        · exact hbuf x hx
        · have : x = ref := by simpa using hx
          exact this ▸ hr ref rfl hre2
      by_cases hlen : 500 ≤ (a.buf ++ [ref]).length
      · rw [if_pos hlen]
        exact fsFlush_mem okUpsert U _ base hbuf2 hmsg
      · rw [if_neg hlen]
        exact ⟨hbuf2, hmsg⟩

theorem fsFold_mem (okUpsert : Nat → Bool) (U : MessageRef → Prop) :
    ∀ (results : List (Except Err MessageRef)) (a : FSState)
      (base : List (Str × MessageRef)),
      (∀ ref, (Except.ok ref) ∈ results → ref.From.isEmpty = false → U ref) →
      (∀ x ∈ a.buf, U x) →
      (∀ kv ∈ a.st.messages, kv ∈ base ∨ (U kv.2 ∧ kv.1 = kv.2.ID)) →
      ((∀ x ∈ (results.foldl (fsStep okUpsert) a).buf, U x)
       ∧ (∀ kv ∈ (results.foldl (fsStep okUpsert) a).st.messages,
            kv ∈ base ∨ (U kv.2 ∧ kv.1 = kv.2.ID))) := by
  intro results
  induction results with
  | nil => exact fun a base _ hbuf hmsg => ⟨hbuf, hmsg⟩
  | cons r rest ih =>
    intro a base hres hbuf hmsg
    simp only [List.foldl_cons]
    have hstep := fsStep_mem okUpsert U a base r
      (fun ref he hne => hres ref (he ▸ List.mem_cons_self _ _) hne) hbuf hmsg
    exact ih (fsStep okUpsert a r) base
      (fun ref h hne => hres ref (List.mem_cons_of_mem _ h) hne) hstep.1 hstep.2

/-- The provenance predicate for C10: the record was decoded from a
successfully fetched message of the given id set. -/
def fetchedRecord (parseDate : Str → Str) (fetch : Str → Except Err GmailMessage)
    (ids : List Str) (r : MessageRef) : Prop :=
  ∃ msg : GmailMessage, (∃ i ∈ ids, fetch i = .ok msg) ∧ r = decodeMessage parseDate msg

theorem fetchResults_ok_mem {parseDate : Str → Str} {fetch : Str → Except Err GmailMessage}
    {ids : List Str} {ref : MessageRef}
    (h : (Except.ok ref) ∈ fetchResults parseDate fetch ids) :
    fetchedRecord parseDate fetch ids ref := by
  unfold fetchResults at h
  rcases List.mem_map.mp h with ⟨i, hi, hmap⟩
  cases hf : fetch i with
  | error e => rw [hf] at hmap; exact Except.noConfusion hmap
  | ok msg =>
    rw [hf] at hmap
    simp only [Except.map] at hmap
    injection hmap with h2
    exact ⟨msg, ⟨i, hi, hf⟩, h2.symm⟩

theorem mem_okDecoded {parseDate : Str → Str} {fetch : Str → Except Err GmailMessage}
    {ids : List Str} {r : MessageRef}
    (h : r ∈ okDecoded parseDate fetch ids) :
    fetchedRecord parseDate fetch ids r ∧ r.From ≠ [] := by
  unfold okDecoded at h
  rcases List.mem_filterMap.mp h with ⟨i, hi, hopt⟩
  cases hf : fetch i with
  | error e => rw [hf] at hopt; exact Option.noConfusion hopt
  | ok msg =>
    rw [hf] at hopt
    simp only at hopt
    by_cases he : (decodeMessage parseDate msg).From.isEmpty
    · rw [if_pos he] at hopt
      exact Option.noConfusion hopt
    · rw [if_neg he] at hopt
      injection hopt with h2
      subst h2
      exact ⟨⟨msg, ⟨i, hi, hf⟩, rfl⟩, fun hh => he (List.isEmpty_iff.mpr hh)⟩

theorem fullScanCollect_mem (okUpsert : Nat → Bool) (U : MessageRef → Prop)
    (hid : Str) (results : List (Except Err MessageRef)) (st0 : StoreState)
    (hres : ∀ ref, (Except.ok ref) ∈ results → ref.From.isEmpty = false → U ref) :
    ∀ kv ∈ (fullScanCollect okUpsert hid results st0).st.messages,
      kv ∈ st0.messages ∨ (U kv.2 ∧ kv.1 = kv.2.ID) := by
  intro kv hkv
  unfold fullScanCollect at hkv
  dsimp only at hkv
  have hfold := fsFold_mem okUpsert U results ⟨st0, [], 0, none, 0⟩ st0.messages hres
    (by simp) (fun kv2 h2 => Or.inl h2)
  set a := results.foldl (fsStep okUpsert) ⟨st0, [], 0, none, 0⟩ with ha
  have hflush := fsFlush_mem okUpsert U a st0.messages hfold.1 hfold.2
  by_cases hbe : a.buf.isEmpty
  · simp only [hbe, Bool.not_true, Bool.false_eq_true, if_false, reduceIte] at hkv
    by_cases hd : 0 < a.done
    · simp only [hd, if_true, reduceIte, setLastHistoryID] at hkv
      exact hfold.2 kv hkv
    · simp only [hd, if_false, reduceIte] at hkv
      exact hfold.2 kv hkv
  · have hbe2 : a.buf.isEmpty = false := by
      cases hx : a.buf.isEmpty
      · rfl
      · exact absurd hx hbe
    simp only [hbe2, Bool.not_false, if_true, reduceIte] at hkv
    by_cases hd : 0 < (fsFlush okUpsert a).done
    · simp only [hd, if_true, reduceIte, setLastHistoryID] at hkv
      exact hflush.2 kv hkv
    · simp only [hd, if_false, reduceIte] at hkv
      exact hflush.2 kv hkv

/-- C10: every message record persisted by Full Scan or Incremental Sync
(beyond what the store already held) was decoded from a fetched message,
so its `From` field is exactly `NormalizeSender` applied to the raw From
header of that message — never the raw header value as such — and it is
non-empty, since records with an empty canonical sender are dropped
before any upsert.  In particular the display-name portion of the raw
header is not retained in the stored `From`. -/
theorem persisted_sender_is_normalized (parseDate : Str → Str)
    (fetch : Str → Except Err GmailMessage) :
    (∀ (okUpsert : Nat → Bool) (hid : Str) (ids : List Str) (st0 : StoreState),
      ∀ kv ∈ (fullScanRun parseDate fetch okUpsert hid ids st0).st.messages,
        kv ∈ st0.messages
        ∨ ∃ msg : GmailMessage, (∃ i ∈ ids, fetch i = .ok msg)
            ∧ kv.2.From = NormalizeSender (headerValue ("from".toList) msg.headers)
            ∧ kv.2.From ≠ [])
    ∧ (∀ (pages : List HistoryPage) (lastHistoryID currentCursor : Str) (st st2 : StoreState),
        syncSinceHistory parseDate fetch pages lastHistoryID currentCursor st = .ok st2 →
        ∀ kv ∈ st2.messages,
          kv ∈ st.messages
          ∨ ∃ msg : GmailMessage, (∃ i ∈ (foldPages pages).1.1, fetch i = .ok msg)
              ∧ kv.2.From = NormalizeSender (headerValue ("from".toList) msg.headers)
              ∧ kv.2.From ≠ []) := by
  constructor
  · intro okUpsert hid ids st0 kv hkv
    have hres : ∀ ref, (Except.ok ref) ∈ fetchResults parseDate fetch ids →
        ref.From.isEmpty = false →
        (∃ msg : GmailMessage, (∃ i ∈ ids, fetch i = .ok msg)
          ∧ ref.From = NormalizeSender (headerValue ("from".toList) msg.headers)
          ∧ ref.From ≠ []) := by
      intro ref h hne
      rcases fetchResults_ok_mem h with ⟨msg, hmsg, hdec⟩
      subst hdec
      refine ⟨msg, hmsg, rfl, ?_⟩
      intro hh
      rw [hh] at hne
      simp at hne
    rcases fullScanCollect_mem okUpsert _ hid (fetchResults parseDate fetch ids) st0 hres
      kv hkv with h1 | ⟨h2, _⟩
    · exact Or.inl h1
    · exact Or.inr h2
  · intro pages lastHistoryID currentCursor st st2 h kv hkv
    unfold syncSinceHistory at h
    split at h
    · exact Except.noConfusion h
    · split at h
      · exact Except.noConfusion h
      · dsimp only at h
        split at h
        · exact Except.noConfusion h
        · rename_i st1 heq
          injection h with h2
          subst h2
          simp only [setLastHistoryID] at hkv
          have hkv1 : kv ∈ st1.messages := by
            by_cases hdel : (foldPages pages).1.2.isEmpty
            · simpa [hdel] using hkv
            · simp only [hdel, Bool.false_eq_true, if_false, reduceIte,
                deleteMessages] at hkv
              exact (List.mem_filter.mp hkv).1
          by_cases hadd : (foldPages pages).1.1.isEmpty
          · rw [if_pos hadd] at heq
            injection heq with h3
            subst h3
            exact Or.inl hkv1
          · rw [if_neg hadd] at heq
            cases hfb : (fetchMetadataBatch parseDate fetch (foldPages pages).1.1).2 with
            | some e =>
              rw [hfb] at heq
              exact Except.noConfusion heq
            | none =>
              rw [hfb] at heq
              injection heq with h3
              subst h3
              rcases mem_upsertMessages hkv1 with h4 | ⟨m, hm, h5⟩
              · exact Or.inl h4
              · have hfb1 : (fetchMetadataBatch parseDate fetch (foldPages pages).1.1).1
                    = okDecoded parseDate fetch (foldPages pages).1.1 := by
                  unfold fetchMetadataBatch
                  rw [collectBatch_spec parseDate fetch (foldPages pages).1.1 [] none]
                  simp
                rw [hfb1] at hm
                rcases mem_okDecoded hm with ⟨⟨msg, hmsg, hdec⟩, hne⟩
                subst h5
                refine Or.inr ⟨msg, hmsg, ?_, ?_⟩
                · rw [hdec]
                  rfl
                · rw [hdec] at hne ⊢
                  exact hne

/-- C10, witness: a concrete Full Scan over one id whose From header is
`"Ann <B@C.org>"` persists one record; the theorem yields its provenance —
the stored `From` equals the normalised, non-empty `"b@c.org"`, not the
raw header. -/
theorem persisted_sender_is_normalized_witness :
    ((("m1".toList, decodeMessage (fun _ => [])
          ⟨"m1".toList, [("From".toList, "Ann <B@C.org>".toList)]⟩) :
        Str × MessageRef)
      ∈ (fullScanRun (fun _ => []) (fun i => .ok ⟨i, [("From".toList, "Ann <B@C.org>".toList)]⟩)
          (fun _ => true) ("9".toList) ["m1".toList] ⟨[], none⟩).st.messages)
    ∧ ((("m1".toList, decodeMessage (fun _ => [])
          ⟨"m1".toList, [("From".toList, "Ann <B@C.org>".toList)]⟩) :
        Str × MessageRef) ∈ ([] : List (Str × MessageRef))
      ∨ ∃ msg : GmailMessage, (∃ i ∈ ["m1".toList], (fun i : Str =>
            (Except.ok ⟨i, [("From".toList, "Ann <B@C.org>".toList)]⟩ :
              Except Err GmailMessage)) i = .ok msg)
          ∧ (decodeMessage (fun _ => [])
              ⟨"m1".toList, [("From".toList, "Ann <B@C.org>".toList)]⟩).From
            = NormalizeSender (headerValue ("from".toList) msg.headers)
          ∧ (decodeMessage (fun _ => [])
              ⟨"m1".toList, [("From".toList, "Ann <B@C.org>".toList)]⟩).From ≠ []) :=
  ⟨by decide,
   (persisted_sender_is_normalized (fun _ => [])
      (fun i => .ok ⟨i, [("From".toList, "Ann <B@C.org>".toList)]⟩)).1
     (fun _ => true) ("9".toList) ["m1".toList] ⟨[], none⟩ _ (by decide)⟩

/-! ## Lemmas: lexicographic string order (C8) -/

theorem ltStr_cons (x y : Char) (xs ys : Str) :
    ltStr (x :: xs) (y :: ys)
      = if x < y then true else if y < x then false else ltStr xs ys := rfl

theorem ltStr_irrefl (a : Str) : ltStr a a = false := by
  induction a with
  | nil => rfl
  | cons c rest ih => rw [ltStr_cons, if_neg (lt_irrefl c), if_neg (lt_irrefl c)]; exact ih

theorem ltStr_asymm : ∀ {a b : Str}, ltStr a b = true → ltStr b a = false := by
  intro a
  induction a with
  | nil =>
    intro b h
    cases b with
    | nil => exact absurd h (by simp [ltStr])
    | cons y ys => rfl
  | cons x xs ih =>
    intro b h
    cases b with
    | nil => exact absurd h (by simp [ltStr])
    | cons y ys =>
      rw [ltStr_cons] at h ⊢
      rcases lt_trichotomy x y with hlt | heq | hgt
      · rw [if_neg (lt_asymm hlt), if_pos hlt]
      · subst heq
        rw [if_neg (lt_irrefl x), if_neg (lt_irrefl x)] at h ⊢
        exact ih h
      · rw [if_neg (lt_asymm hgt), if_pos hgt] at h
        exact absurd h (by simp)

theorem ltStr_trans : ∀ {a b c : Str},
    ltStr a b = true → ltStr b c = true → ltStr a c = true := by
  intro a
  induction a with
  | nil =>
    intro b c hab hbc
    cases b with
    | nil => exact absurd hab (by simp [ltStr])
    | cons y ys =>
      cases c with
      | nil => exact absurd hbc (by simp [ltStr])
      | cons z zs => simp [ltStr]
  | cons x xs ih =>
    intro b c hab hbc
    cases b with
    | nil => exact absurd hab (by simp [ltStr])
    | cons y ys =>
      cases c with
      | nil => exact absurd hbc (by simp [ltStr])
      | cons z zs =>
        rw [ltStr_cons] at hab hbc ⊢
        rcases lt_trichotomy x y with hxy | hxy | hxy
        · rcases lt_trichotomy y z with hyz | hyz | hyz
          · rw [if_pos (lt_trans hxy hyz)]
          · subst hyz
            rw [if_pos hxy]
          · rw [if_neg (lt_asymm hyz), if_pos hyz] at hbc
            exact absurd hbc (by simp)
        · subst hxy
          rw [if_neg (lt_irrefl x), if_neg (lt_irrefl x)] at hab
          rcases lt_trichotomy x z with hxz | hxz | hxz
          · rw [if_pos hxz]
          · subst hxz
            rw [if_neg (lt_irrefl x), if_neg (lt_irrefl x)] at hbc ⊢
            exact ih hab hbc
          · rw [if_neg (lt_asymm hxz), if_pos hxz] at hbc
            exact absurd hbc (by simp)
        · rw [if_neg (lt_asymm hxy), if_pos hxy] at hab
          exact absurd hab (by simp)

theorem ltStr_eq_of_not_lt : ∀ {a b : Str},
    ltStr a b = false → ltStr b a = false → a = b := by
  intro a
  induction a with
  | nil =>
    intro b hab _
    cases b with
    | nil => rfl
    | cons y ys => exact absurd hab (by simp [ltStr])
  | cons x xs ih =>
    intro b hab hba
    cases b with
    | nil => exact absurd hba (by simp [ltStr])
    | cons y ys =>
      rw [ltStr_cons] at hab hba
      rcases lt_trichotomy x y with hxy | hxy | hxy
      · rw [if_pos hxy] at hab
        exact absurd hab (by simp)
      · subst hxy
        rw [if_neg (lt_irrefl x), if_neg (lt_irrefl x)] at hab hba
        rw [ih hab hba]
      · rw [if_pos hxy] at hba
        exact absurd hba (by simp)

/-! ## Lemmas: the `SortGroups` comparator -/

/-- The strict order `goLess` decides:
count descending, then email ascending, then subject ascending. -/
def keyLt (a b : SenderGroup) : Prop :=
  b.Count < a.Count
  ∨ (a.Count = b.Count
      ∧ (ltStr a.Email b.Email = true
          ∨ (a.Email = b.Email ∧ ltStr a.Subject b.Subject = true)))

theorem goLess_iff (a b : SenderGroup) : goLess a b = true ↔ keyLt a b := by
  unfold goLess keyLt
  by_cases hc : a.Count = b.Count
  · rw [if_pos hc]
    by_cases he : a.Email = b.Email
    · rw [if_pos he]
      constructor
      · intro h
        exact Or.inr ⟨hc, Or.inr ⟨he, h⟩⟩
      · rintro (h | ⟨_, h | ⟨_, h⟩⟩)
        · omega
        · rw [he] at h
          exact absurd h (by simp [ltStr_irrefl])
        · exact h
    · rw [if_neg he]
      constructor
      · intro h
        exact Or.inr ⟨hc, Or.inl h⟩
      · rintro (h | ⟨_, h | ⟨he2, _⟩⟩)
        · omega
        · exact h
        · exact absurd he2 he
  · rw [if_neg hc]
    constructor
    · intro h
      exact Or.inl (by simpa using h)
    · rintro (h | ⟨hc2, _⟩)
      · simpa using h
      · exact absurd hc2 hc

theorem goLess_false_iff (a b : SenderGroup) : goLess a b = false ↔ ¬ keyLt a b := by
  rw [← goLess_iff]
  cases h : goLess a b <;> simp

theorem keyLt_asymm {a b : SenderGroup} (h : keyLt a b) : ¬ keyLt b a := by
  rintro (h2 | ⟨hc2, h2⟩)
  · rcases h with h1 | ⟨hc1, _⟩
    · omega
    · omega
  · rcases h with h1 | ⟨hc1, h1⟩
    · omega
    · rcases h1 with h1 | ⟨he1, h1⟩
      · rcases h2 with h2 | ⟨he2, _⟩
        · exact absurd h2 (by simp [ltStr_asymm h1])
        · rw [he2] at h1
          exact absurd h1 (by simp [ltStr_irrefl])
      · rcases h2 with h2 | ⟨_, h2⟩
        · rw [he1] at h2
          exact absurd h2 (by simp [ltStr_irrefl])
        · exact absurd h2 (by simp [ltStr_asymm h1])

theorem ltStr_total (a b : Str) :
    ltStr a b = true ∨ ltStr b a = true ∨ a = b := by
  cases hab : ltStr a b
  · cases hba : ltStr b a
    · exact Or.inr (Or.inr (ltStr_eq_of_not_lt hab hba))
    · exact Or.inr (Or.inl rfl)
  · exact Or.inl rfl

theorem bool_eq_false {b : Bool} (h : b ≠ true) : b = false := by
  cases b
  · rfl
  · exact absurd rfl h

theorem ltStr_le_trans {a b c : Str}
    (hba : ltStr b a = false) (hcb : ltStr c b = false) : ltStr c a = false := by
  cases hca : ltStr c a
  · rfl
  · exfalso
    rcases ltStr_total a b with h1 | h1 | h1
    · rcases ltStr_total b c with h2 | h2 | h2
      · have h3 := ltStr_asymm (ltStr_trans h1 h2)
        rw [h3] at hca
        exact Bool.noConfusion hca
      · rw [h2] at hcb
        exact Bool.noConfusion hcb
      · rw [← h2] at hca
        rw [hca] at hba
        exact Bool.noConfusion hba
    · rw [h1] at hba
      exact Bool.noConfusion hba
    · rw [h1] at hca
      rw [hca] at hcb
      exact Bool.noConfusion hcb

theorem ltStr_lt_of_lt_of_le {x y z : Str}
    (hxy : ltStr x y = true) (hzy : ltStr z y = false) : ltStr x z = true := by
  rcases ltStr_total x z with h | h | h
  · exact h
  · have h2 := ltStr_trans h hxy
    rw [h2] at hzy
    exact Bool.noConfusion hzy
  · rw [← h] at hzy
    rw [hxy] at hzy
    exact Bool.noConfusion hzy

theorem keyLt_le_trans {a b c : SenderGroup}
    (hba : ¬ keyLt b a) (hcb : ¬ keyLt c b) : ¬ keyLt c a := by
  intro hca
  have hba1 : ¬ (a.Count < b.Count) := fun hh => hba (Or.inl hh)
  have hcb1 : ¬ (b.Count < c.Count) := fun hh => hcb (Or.inl hh)
  rcases hca with hca1 | ⟨hceq, hca2⟩
  · omega
  · have hcb2 : b.Count = c.Count := by omega
    have hba2 : a.Count = b.Count := by omega
    have hbaE : ¬ (ltStr b.Email a.Email = true
        ∨ (b.Email = a.Email ∧ ltStr b.Subject a.Subject = true)) :=
      fun hh => hba (Or.inr ⟨hba2.symm, hh⟩)
    have hcbE : ¬ (ltStr c.Email b.Email = true
        ∨ (c.Email = b.Email ∧ ltStr c.Subject b.Subject = true)) :=
      fun hh => hcb (Or.inr ⟨hcb2.symm, hh⟩)
    push_neg at hbaE hcbE
    have hE1 : ltStr b.Email a.Email = false := bool_eq_false hbaE.1
    have hE2 : ltStr c.Email b.Email = false := bool_eq_false hcbE.1
    have hE3 : ltStr c.Email a.Email = false := ltStr_le_trans hE1 hE2
    rcases hca2 with hca2 | ⟨heq, hca3⟩
    · rw [hca2] at hE3
      exact Bool.noConfusion hE3
    · have hE4 : ltStr a.Email b.Email = false := by rw [← heq]; exact hE2
      have hEq : a.Email = b.Email := ltStr_eq_of_not_lt hE4 hE1
      have hS1 : ltStr b.Subject a.Subject = false :=
        bool_eq_false (hbaE.2 hEq.symm)
      have hS2 : ltStr c.Subject b.Subject = false :=
        bool_eq_false (hcbE.2 (by rw [heq, hEq]))
      have hS3 := ltStr_le_trans hS1 hS2
      rw [hca3] at hS3
      exact Bool.noConfusion hS3

theorem keyLt_lt_of_lt_of_le {x y z : SenderGroup}
    (hxy : keyLt x y) (hzy : ¬ keyLt z y) : keyLt x z := by
  have hzy1 : ¬ (y.Count < z.Count) := fun hh => hzy (Or.inl hh)
  rcases hxy with hxy1 | ⟨hceq, hxy2⟩
  · exact Or.inl (by omega)
  · by_cases hzc : z.Count < x.Count
    · exact Or.inl hzc
    · have hcz : x.Count = z.Count := by omega
      have hzyE : ¬ (ltStr z.Email y.Email = true
          ∨ (z.Email = y.Email ∧ ltStr z.Subject y.Subject = true)) :=
        fun hh => hzy (Or.inr ⟨by omega, hh⟩)
      push_neg at hzyE
      have hE2 : ltStr z.Email y.Email = false := bool_eq_false hzyE.1
      refine Or.inr ⟨hcz, ?_⟩
      rcases hxy2 with hxy2 | ⟨heq, hxy3⟩
      · exact Or.inl (ltStr_lt_of_lt_of_le hxy2 hE2)
      · rcases ltStr_total z.Email y.Email with h1 | h1 | h1
        · rw [h1] at hE2
          exact Bool.noConfusion hE2
        · rw [← heq] at h1
          exact Or.inl h1
        · have hxz : x.Email = z.Email := by rw [heq, ← h1]
          have hS2 : ltStr z.Subject y.Subject = false := bool_eq_false (hzyE.2 h1)
          exact Or.inr ⟨hxz, ltStr_lt_of_lt_of_le hxy3 hS2⟩

/-! ## Lemmas: stable sorting (C8) -/

theorem insertStable_eq (x y : SenderGroup) (ys : List SenderGroup) :
    insertStable x (y :: ys)
      = if goLess x y then x :: y :: ys else y :: insertStable x ys := rfl

theorem mem_insertStable {x z : SenderGroup} :
    ∀ {l : List SenderGroup}, z ∈ insertStable x l ↔ z = x ∨ z ∈ l := by
  intro l
  induction l with
  | nil => simp [insertStable]
  | cons y ys ih =>
    rw [insertStable_eq]
    by_cases hxy : goLess x y
    · rw [if_pos hxy]
      constructor
      · intro h
        rcases List.mem_cons.mp h with rfl | h
        · exact Or.inl rfl
        · exact Or.inr h
      · rintro (rfl | h)
        · exact List.mem_cons_self _ _
        · exact List.mem_cons_of_mem _ h
    · rw [if_neg hxy]
      constructor
      · intro h
        rcases List.mem_cons.mp h with rfl | h
        · exact Or.inr (List.mem_cons_self _ _)
        · rcases ih.mp h with h2 | h2
          · exact Or.inl h2
          · exact Or.inr (List.mem_cons_of_mem _ h2)
      · rintro (rfl | h)
        · exact List.mem_cons_of_mem _ (ih.mpr (Or.inl rfl))
        · rcases List.mem_cons.mp h with rfl | h2
          · exact List.mem_cons_self _ _
          · exact List.mem_cons_of_mem _ (ih.mpr (Or.inr h2))

theorem insertStable_perm (x : SenderGroup) :
    ∀ l : List SenderGroup, (insertStable x l).Perm (x :: l) := by
  intro l
  induction l with
  | nil => exact List.Perm.refl _
  | cons y ys ih =>
    rw [insertStable_eq]
    by_cases hxy : goLess x y
    · rw [if_pos hxy]
    · rw [if_neg hxy]
      exact (ih.cons y).trans (List.Perm.swap x y ys)

theorem sortStable_perm (l : List SenderGroup) : (sortStable l).Perm l := by
  unfold sortStable
  suffices main : ∀ (xs acc : List SenderGroup),
      (xs.foldl (fun acc x => insertStable x acc) acc).Perm (acc ++ xs) by
    simpa using main l []
  intro xs
  induction xs with
  | nil => intro acc; simp
  | cons x rest ih =>
    intro acc
    simp only [List.foldl_cons]
    have h1 := ih (insertStable x acc)
    have h2 : (insertStable x acc ++ rest).Perm ((x :: acc) ++ rest) :=
      (insertStable_perm x acc).append_right rest
    have h3 : ((x :: acc) ++ rest).Perm (acc ++ x :: rest) := by
      simpa using List.perm_middle.symm
    exact (h1.trans h2).trans h3

theorem goLess_self (a : SenderGroup) : goLess a a = false :=
  (goLess_false_iff a a).mpr (fun hk => keyLt_asymm hk hk)

theorem pairwise_insertStable {x : SenderGroup} :
    ∀ {l : List SenderGroup},
      List.Pairwise (fun a b => goLess b a = false) l →
      List.Pairwise (fun a b => goLess b a = false) (insertStable x l) := by
  intro l
  induction l with
  | nil => intro _; exact List.pairwise_singleton _ _
  | cons y ys ih =>
    intro hp
    rcases List.pairwise_cons.mp hp with ⟨hy, hys⟩
    rw [insertStable_eq]
    by_cases hxy : goLess x y
    · rw [if_pos hxy]
      refine List.pairwise_cons.mpr ⟨?_, hp⟩
      intro z hz
      rcases List.mem_cons.mp hz with rfl | hzys
      · exact (goLess_false_iff z x).mpr (keyLt_asymm ((goLess_iff x z).mp hxy))
      · have hle : ¬ keyLt z y := (goLess_false_iff z y).mp (hy z hzys)
        have hkxz : keyLt x z := keyLt_lt_of_lt_of_le ((goLess_iff x y).mp hxy) hle
        exact (goLess_false_iff z x).mpr (keyLt_asymm hkxz)
    · rw [if_neg hxy]
      refine List.pairwise_cons.mpr ⟨?_, ih hys⟩
      intro z hz
      rcases mem_insertStable.mp hz with rfl | hzys
      · exact bool_eq_false hxy
      · exact hy z hzys

theorem sortStable_pairwise (l : List SenderGroup) :
    List.Pairwise (fun a b => goLess b a = false) (sortStable l) := by
  unfold sortStable
  suffices main : ∀ (xs acc : List SenderGroup),
      List.Pairwise (fun a b => goLess b a = false) acc →
      List.Pairwise (fun a b => goLess b a = false)
        (xs.foldl (fun acc x => insertStable x acc) acc) by
    exact main l [] (by simp)
  intro xs
  induction xs with
  | nil => exact fun acc h => h
  | cons x rest ih =>
    intro acc hacc
    simp only [List.foldl_cons]
    exact ih _ (pairwise_insertStable hacc)

theorem insertStable_append {x : SenderGroup} :
    ∀ {l : List SenderGroup}, (∀ y ∈ l, goLess x y = false) →
      insertStable x l = l ++ [x] := by
  intro l
  induction l with
  | nil => intro _; rfl
  | cons y ys ih =>
    intro h
    rw [insertStable_eq, if_neg (by rw [h y (List.mem_cons_self _ _)]; simp),
      ih (fun z hz => h z (List.mem_cons_of_mem _ hz))]
    rfl

theorem sortStable_of_sorted :
    ∀ {l : List SenderGroup},
      List.Pairwise (fun a b => goLess b a = false) l → sortStable l = l := by
  suffices main : ∀ (l acc : List SenderGroup),
      List.Pairwise (fun a b => goLess b a = false) (acc ++ l) →
      l.foldl (fun acc x => insertStable x acc) acc = acc ++ l by
    intro l hp
    simpa using main l [] (by simpa using hp)
  intro l
  induction l with
  | nil => intro acc _; simp
  | cons x xs ih =>
    intro acc hp
    simp only [List.foldl_cons]
    have hins : insertStable x acc = acc ++ [x] := by
      apply insertStable_append
      intro y hy
      exact (List.pairwise_append.mp hp).2.2 y hy x (List.mem_cons_self _ _)
    rw [hins, ih (acc ++ [x]) (by simpa using hp)]
    simp

theorem sortStable_idem (l : List SenderGroup) :
    sortStable (sortStable l) = sortStable l :=
  sortStable_of_sorted (sortStable_pairwise l)

theorem filter_insertStable_pos (p : SenderGroup → Bool)
    (hcls : ∀ u v : SenderGroup, p u = true → p v = true → goLess u v = false)
    (x : SenderGroup) (hx : p x = true) :
    ∀ l : List SenderGroup, List.Pairwise (fun a b => goLess b a = false) l →
      (insertStable x l).filter p = l.filter p ++ [x] := by
  intro l
  induction l with
  | nil => intro _; simp [insertStable, hx]
  | cons y ys ih =>
    intro hp
    rcases List.pairwise_cons.mp hp with ⟨hy, hys⟩
    rw [insertStable_eq]
    by_cases hxy : goLess x y
    · rw [if_pos hxy]
      have hnone : ∀ z ∈ y :: ys, p z = false := by
        intro z hz
        cases hq : p z
        · rfl
        · exfalso
          have hle : goLess z y = false := by
            rcases List.mem_cons.mp hz with rfl | hzys
            · exact goLess_self z
            · exact hy z hzys
          have hkxz : keyLt x z :=
            keyLt_lt_of_lt_of_le ((goLess_iff x y).mp hxy)
              ((goLess_false_iff z y).mp hle)
          have hcl := hcls x z hx hq
          rw [(goLess_iff x z).mpr hkxz] at hcl
          exact Bool.noConfusion hcl
      have hfe : (y :: ys).filter p = [] := by
        rw [List.filter_eq_nil_iff]
        intro a ha
        rw [hnone a ha]
        simp
      rw [List.filter_cons_of_pos hx, hfe]
      rfl
    · rw [if_neg hxy]
      by_cases hpy : p y
      · rw [List.filter_cons_of_pos hpy, List.filter_cons_of_pos hpy, ih hys]
        rfl
      · rw [List.filter_cons_of_neg (by simp [hpy]),
          List.filter_cons_of_neg (by simp [hpy])]
        exact ih hys

theorem filter_insertStable_neg (p : SenderGroup → Bool)
    (x : SenderGroup) (hx : p x = false) :
    ∀ l : List SenderGroup, (insertStable x l).filter p = l.filter p := by
  intro l
  induction l with
  | nil => simp [insertStable, hx]
  | cons y ys ih =>
    rw [insertStable_eq]
    by_cases hxy : goLess x y
    · rw [if_pos hxy, List.filter_cons_of_neg (by simp [hx])]
    · rw [if_neg hxy]
      by_cases hpy : p y
      · rw [List.filter_cons_of_pos hpy, List.filter_cons_of_pos hpy, ih]
      · rw [List.filter_cons_of_neg (by simp [hpy]),
          List.filter_cons_of_neg (by simp [hpy])]
        exact ih

theorem sortStable_filter_eq (p : SenderGroup → Bool)
    (hcls : ∀ u v : SenderGroup, p u = true → p v = true → goLess u v = false)
    (l : List SenderGroup) :
    (sortStable l).filter p = l.filter p := by
  unfold sortStable
  suffices main : ∀ (xs acc : List SenderGroup),
      List.Pairwise (fun a b => goLess b a = false) acc →
      (xs.foldl (fun acc x => insertStable x acc) acc).filter p
        = acc.filter p ++ xs.filter p by
    simpa using main l [] (by simp)
  intro xs
  induction xs with
  | nil => intro acc _; simp
  | cons x rest ih =>
    intro acc hacc
    simp only [List.foldl_cons]
    rw [ih _ (pairwise_insertStable hacc)]
    by_cases hx : p x
    · rw [filter_insertStable_pos p hcls x hx acc hacc,
        List.filter_cons_of_pos hx]
      simp
    · rw [filter_insertStable_neg p x (bool_eq_false hx),
        List.filter_cons_of_neg hx]

/-- The concrete tie-break example of C8, as an association-list group
map: groups (a,A,5), (a,B,5), (b,A,5), (c,A,3) in scrambled map order. -/
def exampleGroup (e s : String) (c : Nat) : SenderGroup :=
  ⟨e.toList, s.toList, [], c, [], [], [], [], []⟩

/-- C8: `SortGroups` stably orders the groups by count descending, then
email ascending, then subject ascending (stated as: the output is
pairwise-ordered under the comparator, it is a permutation of the map's
groups, elements with equal (count, email, subject) keys keep their map
order, and re-sorting the output is the identity); the tie-break example
{(a,A,5),(a,B,5),(b,A,5),(c,A,3)} comes out as (a,A),(a,B),(b,A),(c,A). -/
theorem sortGroups_ordering_and_ties :
    (∀ m : List (Str × SenderGroup),
      List.Pairwise (fun a b => goLess b a = false) (SortGroups m)
      ∧ (SortGroups m).Perm (m.map Prod.snd)
      ∧ sortStable (SortGroups m) = SortGroups m)
    ∧ (∀ (m : List (Str × SenderGroup)) (c : Nat) (e s : Str),
        (SortGroups m).filter
            (fun g => decide (g.Count = c) && decide (g.Email = e) && decide (g.Subject = s))
          = (m.map Prod.snd).filter
              (fun g => decide (g.Count = c) && decide (g.Email = e) && decide (g.Subject = s)))
    ∧ SortGroups
        [(groupKey ("c".toList) ("A".toList), exampleGroup "c" "A" 3),
         (groupKey ("b".toList) ("A".toList), exampleGroup "b" "A" 5),
         (groupKey ("a".toList) ("B".toList), exampleGroup "a" "B" 5),
         (groupKey ("a".toList) ("A".toList), exampleGroup "a" "A" 5)]
      = [exampleGroup "a" "A" 5, exampleGroup "a" "B" 5,
         exampleGroup "b" "A" 5, exampleGroup "c" "A" 3] := by
  refine ⟨fun m => ⟨sortStable_pairwise _, sortStable_perm _, sortStable_idem _⟩,
    fun m c e s => ?_, by decide⟩
  apply sortStable_filter_eq
  intro u v hu hv
  simp only [Bool.and_eq_true, decide_eq_true_eq] at hu hv
  refine (goLess_false_iff u v).mpr ?_
  rintro (h | ⟨_, h | ⟨_, h⟩⟩)
  · omega
  · rw [hu.1.2, hv.1.2] at h
    exact absurd h (by simp [ltStr_irrefl])
  · rw [hu.2, hv.2] at h
    exact absurd h (by simp [ltStr_irrefl])

/-! ## Character-level lemmas (C6, C7) -/

theorem char_toNat_inj {a b : Char} (h : a.toNat = b.toNat) : a = b := by
  have h2 := congrArg Char.ofNat h
  rwa [Char.ofNat_toNat, Char.ofNat_toNat] at h2

theorem char_eq_iff {a b : Char} : a = b ↔ a.toNat = b.toNat :=
  ⟨fun h => h ▸ rfl, char_toNat_inj⟩

theorem ofNat_toNat_small {n : Nat} (h : n < 55296) : (Char.ofNat n).toNat = n := by
  unfold Char.ofNat
  rw [dif_pos (Or.inl h)]
  rfl

theorem toLower_toNat (c : Char) :
    (Char.toLower c).toNat
      = if 65 ≤ c.toNat ∧ c.toNat ≤ 90 then c.toNat + 32 else c.toNat := by
  show (if c.toNat ≥ 65 ∧ c.toNat ≤ 90 then Char.ofNat (c.toNat + 32) else c).toNat = _
  by_cases h1 : 65 ≤ c.toNat ∧ c.toNat ≤ 90
  · rw [if_pos h1, if_pos h1]
    exact ofNat_toNat_small (by omega)
  · rw [if_neg h1, if_neg h1]

theorem toUpper_toNat (c : Char) :
    (Char.toUpper c).toNat
      = if 97 ≤ c.toNat ∧ c.toNat ≤ 122 then c.toNat - 32 else c.toNat := by
  show (if c.toNat ≥ 97 ∧ c.toNat ≤ 122 then Char.ofNat (c.toNat - 32) else c).toNat = _
  by_cases h1 : 97 ≤ c.toNat ∧ c.toNat ≤ 122
  · rw [if_pos h1, if_pos h1]
    exact ofNat_toNat_small (by omega)
  · rw [if_neg h1, if_neg h1]

/-- Lowercasing fixes every character that is neither an ASCII lowercase
nor uppercase letter, and maps nothing new onto it. -/
theorem toLower_eq_char {c χ : Char}
    (h1 : ¬ (97 ≤ χ.toNat ∧ χ.toNat ≤ 122))
    (h2 : ¬ (65 ≤ χ.toNat ∧ χ.toNat ≤ 90)) :
    Char.toLower c = χ ↔ c = χ := by
  rw [char_eq_iff, char_eq_iff (a := c), toLower_toNat]
  split_ifs with h
  · constructor <;> intro <;> omega
  · exact Iff.rfl

theorem toUpper_eq_char {c χ : Char}
    (h1 : ¬ (97 ≤ χ.toNat ∧ χ.toNat ≤ 122))
    (h2 : ¬ (65 ≤ χ.toNat ∧ χ.toNat ≤ 90)) :
    Char.toUpper c = χ ↔ c = χ := by
  rw [char_eq_iff, char_eq_iff (a := c), toUpper_toNat]
  split_ifs with h
  · constructor <;> intro <;> omega
  · exact Iff.rfl

/-- ASCII case mapping: lowering an uppercased character equals lowering
the character (both are the identity outside ASCII letters). -/
theorem toLower_toUpper (c : Char) : Char.toLower (Char.toUpper c) = Char.toLower c := by
  apply char_toNat_inj
  rw [toLower_toNat, toLower_toNat, toUpper_toNat]
  split_ifs <;> omega

theorem atext_elim {c : Char} (h : isAtextB true c = true) :
    c = '.' ∨ (isSpecialB c = false ∧ isVcharB c = true) := by
  unfold isAtextB at h
  by_cases hd : c = '.'
  · exact Or.inl hd
  · rw [if_neg hd] at h
    by_cases hs : isSpecialB c = true
    · rw [if_pos hs] at h
      exact Bool.noConfusion h
    · rw [if_neg hs] at h
      exact Or.inr ⟨bool_eq_false hs, h⟩

theorem vchar_toNat {c : Char} (h : isVcharB c = true) :
    (33 ≤ c.toNat ∧ c.toNat ≤ 126) ∨ 128 ≤ c.toNat := by
  unfold isVcharB at h
  simpa using h

theorem atext_not_wsp {c : Char} (h : isAtextB true c = true) : isWSPB c = false := by
  cases hw : isWSPB c
  · rfl
  · exfalso
    unfold isWSPB at hw
    simp only [Bool.or_eq_true, decide_eq_true_eq] at hw
    rcases hw with hw | hw
    · rw [hw] at h
      exact Bool.noConfusion h
    · rw [hw] at h
      exact Bool.noConfusion h

theorem atext_not_space {c : Char} (h : isAtextB true c = true) : isSpaceGo c = false := by
  cases hs : isSpaceGo c
  · rfl
  · exfalso
    rcases atext_elim h with hd | ⟨_, hv⟩
    · rw [hd] at hs
      exact Bool.noConfusion hs
    · have hb := vchar_toNat hv
      unfold isSpaceGo at hs
      simp only [Bool.or_eq_true, decide_eq_true_eq] at hs
      rcases hs with ((((hc | hc) | hc) | hc) | hc) | hc
      · rw [hc] at hv
        exact Bool.noConfusion hv
      · rw [hc] at hv
        exact Bool.noConfusion hv
      · rw [hc] at hv
        exact Bool.noConfusion hv
      · rw [hc] at hv
        exact Bool.noConfusion hv
      · omega
      · omega

theorem atext_ne {c χ : Char} (h : isAtextB true c = true)
    (hχ : isAtextB true χ = false) : c ≠ χ := by
  intro he
  rw [he, hχ] at h
  exact Bool.noConfusion h

theorem isSpecialB_false_of_upper {c : Char}
    (h : 65 ≤ c.toNat ∧ c.toNat ≤ 90) : isSpecialB c = false := by
  unfold isSpecialB
  have hne : ∀ χ : Char, ¬ (65 ≤ χ.toNat ∧ χ.toNat ≤ 90) → (c = χ) = False := by
    intro χ hχ
    simp only [eq_iff_iff, iff_false]
    intro he
    rw [he] at h
    exact hχ h
  simp only [hne '(' (by decide), hne ')' (by decide), hne '<' (by decide),
    hne '>' (by decide), hne '[' (by decide), hne ']' (by decide),
    hne ':' (by decide), hne ';' (by decide), hne '@' (by decide),
    hne '\\' (by decide), hne ',' (by decide), hne '"' (by decide)]
  simp

/-- Uppercasing preserves atext-ness (the uppercase ASCII range contains
no specials and stays visible). -/
theorem toUpper_atext {c : Char} (h : isAtextB true c = true) :
    isAtextB true (Char.toUpper c) = true := by
  rcases atext_elim h with hd | ⟨hsp, hv⟩
  · rw [hd]
    decide
  · by_cases hr : 97 ≤ c.toNat ∧ c.toNat ≤ 122
    · have htn : (Char.toUpper c).toNat = c.toNat - 32 := by
        rw [toUpper_toNat, if_pos hr]
      have hrange : 65 ≤ (Char.toUpper c).toNat ∧ (Char.toUpper c).toNat ≤ 90 := by
        rw [htn]
        omega
      have hdot : ¬ (Char.toUpper c = '.') := by
        intro hh
        have h46 : (Char.toUpper c).toNat = 46 := by rw [hh]; rfl
        omega
      have hspec : isSpecialB (Char.toUpper c) = false := isSpecialB_false_of_upper hrange
      have hvch : isVcharB (Char.toUpper c) = true := by
        unfold isVcharB
        simp only [Bool.or_eq_true, Bool.and_eq_true, decide_eq_true_eq]
        left
        exact ⟨by omega, by omega⟩
      unfold isAtextB
      rw [if_neg hdot, hspec]
      simpa using hvch
    · have htn : Char.toUpper c = c := by
        apply char_toNat_inj
        rw [toUpper_toNat, if_neg hr]
      rw [htn]
      exact h

theorem toUpper_dot_iff (c : Char) : Char.toUpper c = '.' ↔ c = '.' :=
  toUpper_eq_char (by decide) (by decide)

theorem toLower_dot_iff (c : Char) : Char.toLower c = '.' ↔ c = '.' :=
  toLower_eq_char (by decide) (by decide)

theorem toLower_at_iff (c : Char) : Char.toLower c = '@' ↔ c = '@' :=
  toLower_eq_char (by decide) (by decide)

theorem toUpper_at_iff (c : Char) : Char.toUpper c = '@' ↔ c = '@' :=
  toUpper_eq_char (by decide) (by decide)

theorem toLower_plus_iff (c : Char) : Char.toLower c = '+' ↔ c = '+' :=
  toLower_eq_char (by decide) (by decide)

/-! ## Parser lemmas (C6, C7) -/

/-- A valid dot-atom: non-empty, all characters atext-or-dot, and no
leading, trailing or double dots (exactly what strict `consumeAtom`
accepts). -/
def dotAtomOk (a : Str) : Bool :=
  !a.isEmpty && a.all (isAtextB true) && dotAtomCheck a

theorem takeWhile_append_all {p : Char → Bool} :
    ∀ {A r : Str}, (∀ c ∈ A, p c = true) → (∀ c, r.head? = some c → p c = false) →
      (A ++ r).takeWhile p = A ∧ (A ++ r).dropWhile p = r := by
  intro A
  induction A with
  | nil =>
    intro r _ hr
    cases r with
    | nil => exact ⟨rfl, rfl⟩
    | cons c rs =>
      have hc := hr c rfl
      refine ⟨?_, ?_⟩
      · rw [List.nil_append, List.takeWhile_cons, if_neg (by simp [hc])]
      · rw [List.nil_append, List.dropWhile_cons, if_neg (by simp [hc])]
  | cons a A2 ih =>
    intro r hA hr
    have ha := hA a (List.mem_cons_self _ _)
    have hih := ih (fun c hc => hA c (List.mem_cons_of_mem _ hc)) hr
    refine ⟨?_, ?_⟩
    · rw [List.cons_append, List.takeWhile_cons, if_pos ha, hih.1]
    · rw [List.cons_append, List.dropWhile_cons, if_pos ha, hih.2]

theorem consumeAtom_dotAtom {A r : Str} (hA : dotAtomOk A = true)
    (hr : ∀ c, r.head? = some c → isAtextB true c = false) :
    consumeAtom true false (A ++ r) = some (A, r) := by
  unfold dotAtomOk at hA
  simp only [Bool.and_eq_true, List.all_eq_true] at hA
  obtain ⟨⟨hne, hall⟩, hchk⟩ := hA
  have htd := takeWhile_append_all hall hr
  have hne2 : A.isEmpty = false := by
    cases hx : A.isEmpty
    · rfl
    · rw [hx] at hne
      exact Bool.noConfusion hne
  unfold consumeAtom
  simp only [htd.1, htd.2, hne2, hchk, Bool.false_eq_true, if_false, Bool.not_true,
    Bool.and_false, reduceIte]

theorem skipSpace_cons_of {c : Char} {t : Str} (h : isWSPB c = false) :
    skipSpace (c :: t) = c :: t := by
  unfold skipSpace
  rw [List.dropWhile_cons, if_neg (by simp [h])]

theorem dropWhile_eq_self_of_all {p : Char → Bool} {s : Str}
    (h : ∀ c ∈ s, p c = false) : s.dropWhile p = s := by
  cases s with
  | nil => rfl
  | cons c t =>
    rw [List.dropWhile_cons, if_neg (by simp [h c (List.mem_cons_self _ _)])]

theorem trimSpace_eq_self {s : Str} (h : ∀ c ∈ s, isSpaceGo c = false) :
    trimSpace s = s := by
  unfold trimSpace
  rw [dropWhile_eq_self_of_all h,
    dropWhile_eq_self_of_all (fun c hc => h c (List.mem_reverse.mp hc)),
    List.reverse_reverse]

theorem lastIdxOf_eq_none {c : Char} : ∀ {l : Str}, c ∉ l → lastIdxOf c l = none := by
  intro l
  induction l with
  | nil => intro _; rfl
  | cons a rest ih =>
    intro h
    unfold lastIdxOf
    rw [ih (fun hh => h (List.mem_cons_of_mem _ hh)),
      if_neg (fun hh => h (by rw [← hh]; exact List.mem_cons_self _ _))]

theorem lastIdxOf_append {c : Char} (post : Str) (hpost : c ∉ post) :
    ∀ pre : Str, lastIdxOf c (pre ++ c :: post) = some pre.length := by
  intro pre
  induction pre with
  | nil =>
    rw [List.nil_append]
    unfold lastIdxOf
    rw [lastIdxOf_eq_none hpost, if_pos rfl]
    rfl
  | cons a pre2 ih =>
    rw [List.cons_append]
    unfold lastIdxOf
    rw [ih]
    rfl

theorem firstIdxOf_eq_none {c : Char} : ∀ {l : Str}, c ∉ l → firstIdxOf c l = none := by
  intro l
  induction l with
  | nil => intro _; rfl
  | cons a rest ih =>
    intro h
    unfold firstIdxOf
    rw [if_neg (fun hh => h (by rw [← hh]; exact List.mem_cons_self _ _)),
      ih (fun hh => h (List.mem_cons_of_mem _ hh))]
    rfl

theorem firstIdxOf_append {c : Char} (post : Str) :
    ∀ pre : Str, c ∉ pre → firstIdxOf c (pre ++ c :: post) = some pre.length := by
  intro pre
  induction pre with
  | nil =>
    intro _
    rw [List.nil_append]
    unfold firstIdxOf
    rw [if_pos rfl]
    rfl
  | cons a pre2 ih =>
    intro h
    rw [List.cons_append]
    unfold firstIdxOf
    rw [if_neg (fun hh => h (by rw [← hh]; exact List.mem_cons_self _ _)),
      ih (fun hh => h (List.mem_cons_of_mem _ hh))]
    rfl

theorem hasDoubleDot_map {f : Char → Char} (hf : ∀ c, (f c = '.') ↔ (c = '.')) :
    ∀ l : Str, hasDoubleDot (l.map f) = hasDoubleDot l := by
  intro l
  induction l with
  | nil => rfl
  | cons a rest ih =>
    cases rest with
    | nil => rfl
    | cons b rest2 =>
      simp only [List.map_cons] at ih ⊢
      unfold hasDoubleDot
      rw [ih, decide_eq_decide.mpr (hf a), decide_eq_decide.mpr (hf b)]

theorem optMap_eq_some_dot {f : Char → Char} (hf : ∀ c, (f c = '.') ↔ (c = '.'))
    (o : Option Char) : (o.map f = some '.') ↔ (o = some '.') := by
  cases o <;> simp [hf]

theorem dotAtomCheck_map {f : Char → Char} (hf : ∀ c, (f c = '.') ↔ (c = '.'))
    (l : Str) : dotAtomCheck (l.map f) = dotAtomCheck l := by
  unfold dotAtomCheck
  rw [List.head?_map, List.getLast?_map, hasDoubleDot_map hf,
    decide_eq_decide.mpr (optMap_eq_some_dot hf _),
    decide_eq_decide.mpr (optMap_eq_some_dot hf _)]

theorem dotAtomOk_map_toUpper {D : Str} (hD : dotAtomOk D = true) :
    dotAtomOk (D.map Char.toUpper) = true := by
  unfold dotAtomOk at hD ⊢
  simp only [Bool.and_eq_true, List.all_eq_true] at hD ⊢
  obtain ⟨⟨hne, hall⟩, hchk⟩ := hD
  refine ⟨⟨?_, ?_⟩, ?_⟩
  · cases D with
    | nil => exact absurd hne (by decide)
    | cons a t => simp
  · intro x hx
    rcases List.mem_map.mp hx with ⟨y, hy, rfl⟩
    exact toUpper_atext (hall y hy)
  · rw [dotAtomCheck_map toUpper_dot_iff]
    exact hchk

theorem dotAtomOk_head_atext {A : Str} (hA : dotAtomOk A = true) :
    ∃ c A2, A = c :: A2 ∧ isAtextB true c = true := by
  cases A with
  | nil => exact absurd hA (by decide)
  | cons c A2 =>
    refine ⟨c, A2, rfl, ?_⟩
    unfold dotAtomOk at hA
    simp only [Bool.and_eq_true, List.all_eq_true] at hA
    exact hA.1.2 c (List.mem_cons_self _ _)

theorem consumeAddrSpec_dotAtoms {L D r : Str}
    (hL : dotAtomOk L = true) (hD : dotAtomOk D = true)
    (hr : ∀ c, r.head? = some c → isAtextB true c = false) :
    consumeAddrSpec (L ++ '@' :: (D ++ r)) = some (L ++ '@' :: D, r) := by
  obtain ⟨c, L2, rfl, hcA⟩ := dotAtomOk_head_atext hL
  obtain ⟨d0, D2, rfl, hd0A⟩ := dotAtomOk_head_atext hD
  have hquote : ¬ (c = '"') := atext_ne hcA (by decide)
  have hbrack : ¬ (d0 = '[') := atext_ne hd0A (by decide)
  have hskip1 : skipSpace (c :: (L2 ++ '@' :: (d0 :: (D2 ++ r))))
      = c :: (L2 ++ '@' :: (d0 :: (D2 ++ r))) :=
    skipSpace_cons_of (atext_not_wsp hcA)
  have hatomL : consumeAtom true false (c :: (L2 ++ '@' :: (d0 :: (D2 ++ r))))
      = some (c :: L2, '@' :: (d0 :: (D2 ++ r))) := by
    have := consumeAtom_dotAtom (r := '@' :: ((d0 :: D2) ++ r)) hL (fun x hx => by
      injection hx with hx2
      rw [← hx2]
      decide)
    simpa only [List.cons_append] using this
  have hskip2 : skipSpace (d0 :: (D2 ++ r)) = d0 :: (D2 ++ r) :=
    skipSpace_cons_of (atext_not_wsp hd0A)
  have hatomD : consumeAtom true false (d0 :: (D2 ++ r)) = some (d0 :: D2, r) := by
    have := consumeAtom_dotAtom (A := d0 :: D2) (r := r) hD hr
    simpa only [List.cons_append] using this
  simp only [List.cons_append]
  unfold consumeAddrSpec
  simp only [hskip1, if_neg hquote, hatomL, hskip2, if_neg hbrack, hatomD, List.cons_append]
theorem skipSpace_nil : skipSpace [] = [] := rfl

theorem parseOneAddress_addrSpec {l d : Str} (hl : dotAtomOk l = true)
    (hd : dotAtomOk d = true) :
    parseOneAddress (l ++ '@' :: d) = some ⟨l ++ '@' :: d⟩ := by
  obtain ⟨c, L2, rfl, hcA⟩ := dotAtomOk_head_atext hl
  have hs0 : skipSpace (c :: (L2 ++ '@' :: d)) = c :: (L2 ++ '@' :: d) :=
    skipSpace_cons_of (atext_not_wsp hcA)
  have hspec : consumeAddrSpec (c :: (L2 ++ '@' :: d)) = some (c :: (L2 ++ '@' :: d), []) := by
    have h := consumeAddrSpec_dotAtoms (r := []) hl hd (fun x hx => by simp at hx)
    simpa only [List.append_nil, List.cons_append] using h
  simp only [List.cons_append]
  unfold parseOneAddress
  simp only [hs0, List.isEmpty_cons, Bool.false_eq_true, if_false, hspec, skipSpace_nil,
    List.isEmpty_nil, if_true, reduceIte]

theorem parseOneAddress_name_angle {L D : Str} (hL : dotAtomOk L = true)
    (hD : dotAtomOk D = true) :
    parseOneAddress ('X' :: ' ' :: '<' :: ((L ++ '@' :: D) ++ ['>']))
      = some ⟨L ++ '@' :: D⟩ := by
  have hnone : ∀ u : Str, consumeAddrSpec ('X' :: ' ' :: '<' :: u) = none := fun u => rfl
  have hphrase : ∀ u : Str, consumePhrase ('X' :: ' ' :: '<' :: u) = some ('<' :: u) :=
    fun u => rfl
  have hspec : consumeAddrSpec (L ++ '@' :: (D ++ ['>'])) = some (L ++ '@' :: D, ['>']) :=
    consumeAddrSpec_dotAtoms (r := ['>']) hL hD (fun x hx => by
      injection hx with hx2
      rw [← hx2]
      decide)
  unfold parseOneAddress
  simp only [hnone, hphrase, skipSpace_cons_of (c := 'X') (by decide),
    List.isEmpty_cons, Bool.false_eq_true, if_false, skipSpace_nil, List.isEmpty_nil,
    if_true, reduceIte]
  simp
  rw [hspec]
  simp [skipSpace_nil]

theorem toLower_at_rfl : Char.toLower '@' = '@' := by decide

theorem normEmail_split {lp dom : Str}
    (hsp : ∀ c ∈ lp ++ '@' :: dom, isSpaceGo c = false)
    (hat : '@' ∉ dom.map Char.toLower)
    (hne : lp ≠ []) :
    normEmail (lp ++ '@' :: dom)
      = (match firstIdxOf '+' (lp.map Char.toLower) with
         | some p => (lp.map Char.toLower).take p
         | none => lp.map Char.toLower) ++ '@' :: dom.map Char.toLower := by
  have hemail : (trimSpace (lp ++ '@' :: dom)).map Char.toLower
      = lp.map Char.toLower ++ '@' :: dom.map Char.toLower := by
    rw [trimSpace_eq_self hsp, List.map_append, List.map_cons, toLower_at_rfl]
  have hlast : lastIdxOf '@' (lp.map Char.toLower ++ '@' :: dom.map Char.toLower)
      = some (lp.map Char.toLower).length := lastIdxOf_append _ hat _
  have hlen : ¬ ((lp.map Char.toLower).length = 0) := by
    intro h0
    rw [List.length_map] at h0
    exact hne (List.length_eq_zero.mp h0)
  have htake : (lp.map Char.toLower ++ '@' :: dom.map Char.toLower).take
      (lp.map Char.toLower).length = lp.map Char.toLower := List.take_left _ _
  have hdrop : (lp.map Char.toLower ++ '@' :: dom.map Char.toLower).drop
      ((lp.map Char.toLower).length + 1) = dom.map Char.toLower := by
    have hre : lp.map Char.toLower ++ '@' :: dom.map Char.toLower
        = (lp.map Char.toLower ++ ['@']) ++ dom.map Char.toLower := by
      rw [List.append_assoc, List.singleton_append]
    rw [hre]
    exact List.drop_left' (by rw [List.length_append]; rfl)
  unfold normEmail
  dsimp only
  rw [hemail, hlast]
  dsimp only
  rw [if_neg hlen, htake, hdrop]

theorem toLower_plus_rfl : Char.toLower '+' = '+' := by decide

theorem normalizeSender_of_parse {H : Str} {a : MailAddr} (hne : H.isEmpty = false)
    (hp : parseOneAddress H = some a) :
    NormalizeSender H = normEmail a.address := by
  unfold NormalizeSender
  rw [hne, hp]
  rfl

theorem dotAtomOk_all {l : Str} (hl : dotAtomOk l = true) :
    ∀ c ∈ l, isAtextB true c = true := by
  unfold dotAtomOk at hl
  simp only [Bool.and_eq_true, List.all_eq_true] at hl
  exact hl.1.2

theorem lower_parts_of_fixed {l d : Str}
    (hlow : (l ++ '@' :: d).map Char.toLower = l ++ '@' :: d) :
    l.map Char.toLower = l ∧ d.map Char.toLower = d := by
  rw [List.map_append, List.map_cons, toLower_at_rfl] at hlow
  have h := List.append_inj hlow (List.length_map _ _)
  refine ⟨h.1, ?_⟩
  have h2 := h.2
  injection h2

theorem normalizeSender_fixed {l d : Str} (hl : dotAtomOk l = true) (hd : dotAtomOk d = true)
    (hplus : '+' ∉ l) (hlow : (l ++ '@' :: d).map Char.toLower = l ++ '@' :: d) :
    NormalizeSender (l ++ '@' :: d) = l ++ '@' :: d := by
  have hlparts := lower_parts_of_fixed hlow
  have hall_l := dotAtomOk_all hl
  have hall_d := dotAtomOk_all hd
  have hsp : ∀ c ∈ l ++ '@' :: d, isSpaceGo c = false := by
    intro c hc
    rcases List.mem_append.mp hc with h | h
    · exact atext_not_space (hall_l c h)
    · rcases List.mem_cons.mp h with rfl | h2
      · decide
      · exact atext_not_space (hall_d c h2)
  have hat : '@' ∉ d.map Char.toLower := by
    intro hx
    rcases List.mem_map.mp hx with ⟨y, hy, hxy⟩
    exact atext_ne (hall_d y hy) (by decide) ((toLower_at_iff y).mp hxy)
  have hlne : l ≠ [] := by
    intro h0
    rw [h0] at hl
    exact absurd hl (by decide)
  have hne : (l ++ '@' :: d).isEmpty = false := by
    cases l with
    | nil => exact absurd rfl hlne
    | cons a t => rfl
  rw [normalizeSender_of_parse hne (parseOneAddress_addrSpec hl hd),
    normEmail_split hsp hat hlne, hlparts.1, hlparts.2, firstIdxOf_eq_none hplus]

/-! ## C6, C7: normaliser case/plus and idempotence -/

/-- C6: for every local part `L`, suffix `S` and domain `D` (each a valid
RFC 5322 dot-atom, the local part containing its first `+` right before
`S`), normalising the header `X <L+S@upper(D)>` yields
`lower(L) ++ "@" ++ lower(D)`, and dots of `L` are preserved position by
position (not folded). -/
theorem normalizer_case_plus {L S D : Str}
    (hLS : dotAtomOk (L ++ '+' :: S) = true)
    (hD : dotAtomOk D = true)
    (hplus : '+' ∉ L) :
    NormalizeSender ('X' :: ' ' :: '<' ::
        (((L ++ '+' :: S) ++ '@' :: D.map Char.toUpper) ++ ['>']))
      = L.map Char.toLower ++ '@' :: D.map Char.toLower
    ∧ ∀ n : Nat, (L.map Char.toLower)[n]? = some '.' ↔ L[n]? = some '.' := by
  have hDU : dotAtomOk (D.map Char.toUpper) = true := dotAtomOk_map_toUpper hD
  have hall_ls := dotAtomOk_all hLS
  have hall_d := dotAtomOk_all hD
  have hsp : ∀ c ∈ (L ++ '+' :: S) ++ '@' :: D.map Char.toUpper, isSpaceGo c = false := by
    intro c hc
    rcases List.mem_append.mp hc with h | h
    · exact atext_not_space (hall_ls c h)
    · rcases List.mem_cons.mp h with rfl | h2
      · decide
      · rcases List.mem_map.mp h2 with ⟨y, hy, rfl⟩
        exact atext_not_space (toUpper_atext (hall_d y hy))
  have hat : '@' ∉ (D.map Char.toUpper).map Char.toLower := by
    intro hx
    rcases List.mem_map.mp hx with ⟨y, hy, hxy⟩
    rcases List.mem_map.mp hy with ⟨z, hz, rfl⟩
    exact atext_ne (hall_d z hz) (by decide)
      ((toUpper_at_iff z).mp ((toLower_at_iff _).mp hxy))
  have hlpne : L ++ '+' :: S ≠ [] := by simp
  have hplusLow : '+' ∉ L.map Char.toLower := by
    intro hx
    rcases List.mem_map.mp hx with ⟨y, hy, hxy⟩
    exact hplus (((toLower_plus_iff y).mp hxy) ▸ hy)
  have hmapLS : (L ++ '+' :: S).map Char.toLower
      = L.map Char.toLower ++ '+' :: S.map Char.toLower := by
    rw [List.map_append, List.map_cons, toLower_plus_rfl]
  have hDlow : (D.map Char.toUpper).map Char.toLower = D.map Char.toLower := by
    rw [List.map_map]
    exact List.map_congr_left (fun c _ => toLower_toUpper c)
  constructor
  · rw [normalizeSender_of_parse (by rfl) (parseOneAddress_name_angle hLS hDU),
      normEmail_split hsp hat hlpne, hmapLS,
      firstIdxOf_append (S.map Char.toLower) (L.map Char.toLower) hplusLow, hDlow]
    simp only [List.take_left]
  · intro n
    rw [List.getElem?_map]
    exact optMap_eq_some_dot toLower_dot_iff _

/-- C6, witness at a concrete input: header
`X <john.doe+news@EXAMPLE.COM>` normalises to `john.doe@example.com`,
with the dot of the local part preserved. -/
theorem normalizer_case_plus_witness :
    NormalizeSender ('X' :: ' ' :: '<' ::
        ((("john.doe".toList ++ '+' :: "news".toList)
          ++ '@' :: "example.com".toList.map Char.toUpper) ++ ['>']))
      = "john.doe".toList.map Char.toLower ++ '@' :: "example.com".toList.map Char.toLower
    ∧ ∀ n : Nat, ("john.doe".toList.map Char.toLower)[n]? = some '.'
        ↔ "john.doe".toList[n]? = some '.' :=
  normalizer_case_plus (by decide) (by decide) (by decide)

/-- C7 (amended): the normaliser is idempotent on every header whose
first output is a well-formed canonical address — a dot-atom local part
with no `+`, an `@`, and a dot-atom domain, all already lowercase (which
is what it produces for every ordinarily well-formed header).  It is NOT
idempotent for every header with non-empty output: a local part that the
plus-stripping empties or leaves with a trailing dot yields a non-empty
output that re-normalises to the empty string. -/
theorem normalizer_idempotent_on_wellformed {H l d : Str}
    (hout : NormalizeSender H = l ++ '@' :: d)
    (hl : dotAtomOk l = true) (hd : dotAtomOk d = true)
    (hplus : '+' ∉ l)
    (hlow : (l ++ '@' :: d).map Char.toLower = l ++ '@' :: d) :
    NormalizeSender (NormalizeSender H) = NormalizeSender H := by
  rw [hout]
  exact normalizeSender_fixed hl hd hplus hlow

/-- C7, witness for the amended theorem: `A <User+x@EXAMPLE.com>`
normalises to `user@example.com`, which re-normalises to itself. -/
theorem normalizer_idempotent_on_wellformed_witness :
    NormalizeSender (NormalizeSender ("A <User+x@EXAMPLE.com>".toList))
      = NormalizeSender ("A <User+x@EXAMPLE.com>".toList) :=
  normalizer_idempotent_on_wellformed (l := "user".toList) (d := "example.com".toList)
    (by decide) (by decide) (by decide) (by decide) (by decide)

/-- C7, counterexample to the claim as stated: `+tag@x.com` normalises to
the non-empty string `@x.com` (the `+`-stripping empties the local part),
and `@x.com` re-normalises to the empty string, so
`NormalizeSender (NormalizeSender H) ≠ NormalizeSender H` although
`NormalizeSender H` is non-empty. -/
theorem normalizer_not_idempotent_counterexample :
    NormalizeSender ("+tag@x.com".toList) = "@x.com".toList
    ∧ (NormalizeSender ("+tag@x.com".toList)).isEmpty = false
    ∧ NormalizeSender (NormalizeSender ("+tag@x.com".toList))
        ≠ NormalizeSender ("+tag@x.com".toList) := by
  refine ⟨by decide, by decide, by decide⟩

end Chuckterm
